import Mathlib

/-!
# Verification of the SOLPRISM commit-reveal protocol sources

Shallow embedding of the TypeScript sources of the SOLPRISM repository
(Eliza plugin, verification API, explorer reader, MCP server, SDK
scripts) together with a model of the on-chain program described by the
specification, and proofs of the specified properties.

Bytes are modelled as `Nat` values `< 256` inside `List Nat` buffers;
machine words use explicit `% 2^32` / `% 2^64` arithmetic.  Fallible
buffer reads (Node `Buffer` reads throw on out-of-range access) are
modelled with `Option`.
-/

namespace Solprism

/-- 32-bit truncation, as used for JS `>>> 0` and `writeUInt32LE` arithmetic. -/
def w32 (n : Nat) : Nat := n % 4294967296

/-- Little-endian 4-byte encoding of `n % 2^32` (Buffer.writeUInt32LE). -/
def u32le (n : Nat) : List Nat :=
  [n % 256, n / 256 % 256, n / 65536 % 256, n / 16777216 % 256]

/-- Little-endian 8-byte encoding of `n % 2^64` (Buffer.writeBigUInt64LE). -/
def u64le (n : Nat) : List Nat :=
  [n % 256, n / 256 % 256, n / 65536 % 256, n / 16777216 % 256,
   n / 4294967296 % 256, n / 1099511627776 % 256,
   n / 281474976710656 % 256, n / 72057594037927936 % 256]

/-- UTF-8 encoding of a single character (what `Buffer.from(s, "utf-8")`
produces per code point). -/
def utf8Char (c : Char) : List Nat :=
  let n := c.toNat
  if n < 128 then [n]
  else if n < 2048 then [192 + n / 64, 128 + n % 64]
  else if n < 65536 then [224 + n / 4096, 128 + n / 64 % 64, 128 + n % 64]
  else [240 + n / 262144, 128 + n / 4096 % 64, 128 + n / 64 % 64, 128 + n % 64]

/-- UTF-8 byte sequence of a string (`Buffer.from(s, "utf-8")`). -/
def utf8Bytes (s : String) : List Nat :=
  s.data.foldr (fun c acc => utf8Char c ++ acc) []

/-- Number of UTF-16 code units of a string (JS `s.length`). -/
def utf16Len (s : String) : Nat :=
  s.data.foldr (fun c acc => (if c.toNat < 65536 then 1 else 2) + acc) 0

/-! ## SHA-256 (`crypto.createHash("sha256")`), over byte lists -/

/-- Big-endian 8-byte encoding (SHA-256 length field). -/
def be64 (n : Nat) : List Nat :=
  [n / 72057594037927936 % 256, n / 281474976710656 % 256,
   n / 1099511627776 % 256, n / 4294967296 % 256,
   n / 16777216 % 256, n / 65536 % 256, n / 256 % 256, n % 256]

/-- 32-bit right rotation. -/
def rotr32 (n x : Nat) : Nat := w32 ((x >>> n) ||| (x <<< (32 - n)))

def shaCh (x y z : Nat) : Nat := (x &&& y) ^^^ ((x ^^^ 4294967295) &&& z)

def shaMaj (x y z : Nat) : Nat := (x &&& y) ^^^ (x &&& z) ^^^ (y &&& z)

def bigSigma0 (x : Nat) : Nat := rotr32 2 x ^^^ rotr32 13 x ^^^ rotr32 22 x

def bigSigma1 (x : Nat) : Nat := rotr32 6 x ^^^ rotr32 11 x ^^^ rotr32 25 x

def smallSigma0 (x : Nat) : Nat := rotr32 7 x ^^^ rotr32 18 x ^^^ (x >>> 3)

def smallSigma1 (x : Nat) : Nat := rotr32 17 x ^^^ rotr32 19 x ^^^ (x >>> 10)

/-- The 64 SHA-256 round constants. -/
def shaK : List Nat :=
  [1116352408, 1899447441, 3049323471, 3921009573, 961987163, 1508970993,
   2453635748, 2870763221, 3624381080, 310598401, 607225278, 1426881987,
   1925078388, 2162078206, 2614888103, 3248222580, 3835390401, 4022224774,
   264347078, 604807628, 770255983, 1249150122, 1555081692, 1996064986,
   2554220882, 2821834349, 2952996808, 3210313671, 3336571891, 3584528711,
   113926993, 338241895, 666307205, 773529912, 1294757372, 1396182291,
   1695183700, 1986661051, 2177026350, 2456956037, 2730485921, 2820302411,
   3259730800, 3345764771, 3516065817, 3600352804, 4094571909, 275423344,
   430227734, 506948616, 659060556, 883997877, 958139571, 1322822218,
   1537002063, 1747873779, 1955562222, 2024104815, 2227730452, 2361852424,
   2428436474, 2756734187, 3204031479, 3329325298]

/-- The initial SHA-256 state. -/
def shaH0 : List Nat :=
  [1779033703, 3144134277, 1013904242, 2773480762,
   1359893119, 2600822924, 528734635, 1541459225]

/-- SHA-256 message padding: `0x80`, zeros to 56 mod 64, 8-byte bit length. -/
def shaPad (msg : List Nat) : List Nat :=
  let L := msg.length
  let z := (64 - (L + 9) % 64) % 64
  msg ++ [128] ++ List.replicate z 0 ++ be64 (8 * L)

/-- Group bytes into big-endian 32-bit words. -/
def bytesToWords : List Nat → List Nat
  | a :: b :: c :: d :: rest =>
      (a * 16777216 + b * 65536 + c * 256 + d) :: bytesToWords rest
  | _ => []

/-- Extend the 16 block words to the 64-entry message schedule. -/
def shaSchedule (ws : List Nat) : List Nat :=
  (List.range 48).foldl
    (fun acc _ =>
      acc ++ [w32 (smallSigma1 (acc.getD (acc.length - 2) 0)
        + acc.getD (acc.length - 7) 0
        + smallSigma0 (acc.getD (acc.length - 15) 0)
        + acc.getD (acc.length - 16) 0)])
    ws

/-- One SHA-256 compression round over the running 8-word state. -/
def shaRound (wrd k : Nat)
    (st : Nat × Nat × Nat × Nat × Nat × Nat × Nat × Nat) :
    Nat × Nat × Nat × Nat × Nat × Nat × Nat × Nat :=
  let (a, b, c, d, e, f, g, hv) := st
  let t1 := w32 (hv + bigSigma1 e + shaCh e f g + k + wrd)
  let t2 := w32 (bigSigma0 a + shaMaj a b c)
  (w32 (t1 + t2), a, b, c, w32 (d + t1), e, f, g)

/-- Compress one 64-byte block into the hash state. -/
def shaCompress (h : List Nat) (block : List Nat) : List Nat :=
  let w := shaSchedule (bytesToWords block)
  let init := (h.getD 0 0, h.getD 1 0, h.getD 2 0, h.getD 3 0,
               h.getD 4 0, h.getD 5 0, h.getD 6 0, h.getD 7 0)
  let fin := (List.range 64).foldl
    (fun st i => shaRound (w.getD i 0) (shaK.getD i 0) st) init
  [w32 (h.getD 0 0 + fin.1), w32 (h.getD 1 0 + fin.2.1),
   w32 (h.getD 2 0 + fin.2.2.1), w32 (h.getD 3 0 + fin.2.2.2.1),
   w32 (h.getD 4 0 + fin.2.2.2.2.1), w32 (h.getD 5 0 + fin.2.2.2.2.2.1),
   w32 (h.getD 6 0 + fin.2.2.2.2.2.2.1), w32 (h.getD 7 0 + fin.2.2.2.2.2.2.2)]

/-- Fold the compression over consecutive 64-byte blocks. -/
def shaBlocks (h : List Nat) : List Nat → List Nat
  | [] => h
  | b :: rest =>
      shaBlocks (shaCompress h ((b :: rest).take 64)) ((b :: rest).drop 64)
termination_by msg => msg.length
decreasing_by simp [List.length_drop]; omega

/-- SHA-256 of a byte list, as 32 output bytes. -/
def sha256 (msg : List Nat) : List Nat :=
  (shaBlocks shaH0 (shaPad msg)).foldr
    (fun wrd acc =>
      wrd / 16777216 % 256 :: wrd / 65536 % 256 :: wrd / 256 % 256 ::
        wrd % 256 :: acc) []

theorem shaBlocks_length : ∀ (h msg : List Nat), h.length = 8 →
    (shaBlocks h msg).length = 8 := by
  intro h msg
  induction h, msg using shaBlocks.induct with
  | case1 h => intro hl; simpa [shaBlocks]
  | case2 h b rest ih =>
      intro _
      rw [shaBlocks]
      exact ih (by simp [shaCompress])

theorem sha256_length (msg : List Nat) : (sha256 msg).length = 32 := by
  unfold sha256
  have h8 := shaBlocks_length shaH0 (shaPad msg) (by rfl)
  generalize hfin : shaBlocks shaH0 (shaPad msg) = fin at h8
  match fin, h8 with
  | [a, b, c, d, e, f, g, hv], _ => rfl

theorem sha256_bytes_lt (msg : List Nat) : ∀ b ∈ sha256 msg, b < 256 := by
  unfold sha256
  generalize shaBlocks shaH0 (shaPad msg) = fin
  induction fin with
  | nil => simp
  | cons x xs ih =>
      intro b hb
      simp only [List.foldr_cons, List.mem_cons] at hb
      rcases hb with hb | hb | hb | hb | hb
      · omega
      · omega
      · omega
      · omega
      · exact ih b hb

/-! ## JSON values and the two canonical-hash implementations

`JVal` models the JSON values JS passes to `JSON.stringify` (numbers
restricted to integers, which covers the reasoning-trace fields; object
field lists record insertion order, duplicate keys cannot arise in JS
objects and are excluded by `nodupKeysB` where it matters). -/

inductive JVal where
  | jnull
  | jbool (b : Bool)
  | jnum (n : Int)
  | jstr (s : String)
  | jarr (elems : List JVal)
  | jobj (fields : List (String × JVal))
deriving Repr

/-- JS object property access `obj[key]`. -/
def jLookup : List (String × JVal) → String → Option JVal
  | [], _ => none
  | (k, v) :: fs, key => if k == key then some v else jLookup fs key

/-- All object keys distinct (always true of a JS object). -/
def nodupKeysB : List (String × JVal) → Bool
  | [] => true
  | (k, _) :: fs => !(fs.any (fun p => p.1 == k)) && nodupKeysB fs

/-- Lexicographic code-unit comparison of character lists (the default
JS `Array.prototype.sort()` string order). -/
def charListLe : List Char → List Char → Bool
  | [], _ => true
  | _ :: _, [] => false
  | a :: as, b :: bs =>
      if a.toNat < b.toNat then true
      else if b.toNat < a.toNat then false
      else charListLe as bs

def strLe (a b : String) : Bool := charListLe a.data b.data

/-- `Array.prototype.sort()` on string keys (lexicographic). -/
def sortStr (l : List String) : List String :=
  List.insertionSort (fun a b => strLe a b = true) l

/-- Key-ordered insertion sort of an object field list. -/
def sortFields (fs : List (String × JVal)) : List (String × JVal) :=
  List.insertionSort (fun a b => strLe a.1 b.1 = true) fs

/- The Eliza plugin's recursive `sortKeys`: object keys sorted at every
nesting level, values canonicalized recursively (provider.ts). -/
mutual
def sortKeysJ : JVal → JVal
  | .jnull => .jnull
  | .jbool b => .jbool b
  | .jnum n => .jnum n
  | .jstr s => .jstr s
  | .jarr xs => .jarr (sortKeysArr xs)
  | .jobj fs => .jobj (sortFields (sortKeysFields fs))
termination_by structural v => v
def sortKeysArr : List JVal → List JVal
  | [] => []
  | x :: xs => sortKeysJ x :: sortKeysArr xs
termination_by structural v => v
def sortKeysFields : List (String × JVal) → List (String × JVal)
  | [] => []
  | (k, v) :: fs => (k, sortKeysJ v) :: sortKeysFields fs
termination_by structural v => v
end

def hexDigitCh (n : Nat) : Char :=
  if n < 10 then Char.ofNat (48 + n) else Char.ofNat (87 + n)

def hex4 (n : Nat) : String :=
  ⟨[hexDigitCh (n / 4096 % 16), hexDigitCh (n / 256 % 16),
    hexDigitCh (n / 16 % 16), hexDigitCh (n % 16)]⟩

/-- `JSON.stringify` string escaping (QuoteJSONString). -/
def escapeJsonChar (c : Char) : List Char :=
  if c = '"' then ['\\', '"']
  else if c = '\\' then ['\\', '\\']
  else if c.toNat = 8 then ['\\', 'b']
  else if c.toNat = 9 then ['\\', 't']
  else if c.toNat = 10 then ['\\', 'n']
  else if c.toNat = 12 then ['\\', 'f']
  else if c.toNat = 13 then ['\\', 'r']
  else if c.toNat < 32 then '\\' :: 'u' :: (hex4 c.toNat).data
  else [c]

def quoteJson (s : String) : String :=
  "\"" ++ String.mk (s.data.foldr (fun c acc => escapeJsonChar c ++ acc) []) ++ "\""

/- `JSON.stringify` without replacer (compact, no spacing). -/
mutual
def stringifyJ : JVal → String
  | .jnull => "null"
  | .jbool true => "true"
  | .jbool false => "false"
  | .jnum n => toString n
  | .jstr s => quoteJson s
  | .jarr xs => "[" ++ stringifyArr xs ++ "]"
  | .jobj fs => "\x7b" ++ stringifyFields fs ++ "\x7d"
termination_by structural v => v
def stringifyArr : List JVal → String
  | [] => ""
  | [x] => stringifyJ x
  | x :: y :: rest => stringifyJ x ++ "," ++ stringifyArr (y :: rest)
termination_by structural v => v
def stringifyFields : List (String × JVal) → String
  | [] => ""
  | [(k, v)] => quoteJson k ++ ":" ++ stringifyJ v
  | (k, v) :: p :: rest =>
      quoteJson k ++ ":" ++ stringifyJ v ++ "," ++ stringifyFields (p :: rest)
termination_by structural v => v
end

/-- Eliza plugin `hashTrace`: SHA-256 of the UTF-8 bytes of the canonical
(recursively key-sorted) JSON serialization (provider.ts). -/
def hashTraceP (trace : JVal) : List Nat :=
  sha256 (utf8Bytes (stringifyJ (sortKeysJ trace)))

/-- Entries of `fs`, reordered and filtered by the ECMAScript
`PropertyList` semantics of an array replacer: for each key of `props`
in order, the matching entries of `fs`. -/
def orderByProps (props : List String) (fs : List (String × JVal)) :
    List (String × JVal) :=
  props.flatMap (fun k => fs.filter (fun p => p.1 == k))

/- The effect of `JSON.stringify(value, props)` on the value tree: at
every object, keep exactly the entries whose key is in `props`, in
`props` order (SerializeJSONObject with `K = PropertyList`). -/
mutual
def projectJ (props : List String) : JVal → JVal
  | .jnull => .jnull
  | .jbool b => .jbool b
  | .jnum n => .jnum n
  | .jstr s => .jstr s
  | .jarr xs => .jarr (projectArr props xs)
  | .jobj fs => .jobj (orderByProps props (projectFields props fs))
termination_by structural v => v
def projectArr (props : List String) : List JVal → List JVal
  | [] => []
  | x :: xs => projectJ props x :: projectArr props xs
termination_by structural v => v
def projectFields (props : List String) :
    List (String × JVal) → List (String × JVal)
  | [] => []
  | (k, v) :: fs => (k, projectJ props v) :: projectFields props fs
termination_by structural v => v
end

/-- Top-level own keys, `Object.keys(trace)`. -/
def topKeys : JVal → List String
  | .jobj fs => fs.map Prod.fst
  | _ => []

/-- Verification API `hashTrace`: SHA-256 of
`JSON.stringify(trace, Object.keys(trace).sort())` (api/src/index.ts).
The array replacer keeps, at every nesting level, only the keys listed
in the sorted top-level key list, in that order. -/
def hashTraceApi (trace : JVal) : List Nat :=
  sha256 (utf8Bytes (stringifyJ (projectJ (sortStr (topKeys trace)) trace)))

/- Equality of JSON values up to re-ordering of object keys at any
depth: objects must have duplicate-free, identical key sets and
pointwise equivalent values; arrays compare elementwise. -/
mutual
def keyEquiv : JVal → JVal → Bool
  | .jnull, .jnull => true
  | .jbool a, .jbool b => a == b
  | .jnum a, .jnum b => a == b
  | .jstr a, .jstr b => a == b
  | .jarr xs, .jarr ys => keyEquivArr xs ys
  | .jobj fs, .jobj gs =>
      nodupKeysB fs && nodupKeysB gs
        && sortStr (fs.map Prod.fst) == sortStr (gs.map Prod.fst)
        && keyEquivFields fs gs
  | _, _ => false
termination_by structural a _b => a
def keyEquivArr : List JVal → List JVal → Bool
  | [], [] => true
  | x :: xs, y :: ys => keyEquiv x y && keyEquivArr xs ys
  | _, _ => false
termination_by structural a _b => a
def keyEquivFields : List (String × JVal) → List (String × JVal) → Bool
  | [], _ => true
  | (k, v) :: fs, gs =>
      (match jLookup gs k with
       | some w => keyEquiv v w
       | none => false) && keyEquivFields fs gs
termination_by structural a _b => a
end

/-! ### Association-list infrastructure for the canonicalization proofs -/

theorem jLookup_eq_none_iff (fs : List (String × JVal)) (k : String) :
    jLookup fs k = none ↔ k ∉ fs.map Prod.fst := by
  induction fs with
  | nil => simp [jLookup]
  | cons p fs ih =>
      obtain ⟨k0, v0⟩ := p
      by_cases hk : k0 = k
      · subst hk; simp [jLookup]
      · simp [jLookup, hk, ih, Ne.symm hk]

theorem nodupKeysB_iff (fs : List (String × JVal)) :
    nodupKeysB fs = true ↔ (fs.map Prod.fst).Nodup := by
  induction fs with
  | nil => simp [nodupKeysB]
  | cons p fs ih =>
      obtain ⟨k0, v0⟩ := p
      simp only [nodupKeysB, Bool.and_eq_true, Bool.not_eq_true', List.any_eq_false,
        List.map_cons, List.nodup_cons, ih, beq_iff_eq, List.mem_map]
      constructor
      · rintro ⟨h1, h2⟩
        refine ⟨?_, h2⟩
        rintro ⟨p, hp, hpk⟩
        exact absurd hpk (by simpa using h1 p hp)
      · rintro ⟨h1, h2⟩
        refine ⟨?_, h2⟩
        intro p hp
        simpa using fun hpk => h1 ⟨p, hp, hpk⟩

theorem map_fst_sortKeysFields (fs : List (String × JVal)) :
    (sortKeysFields fs).map Prod.fst = fs.map Prod.fst := by
  induction fs with
  | nil => rfl
  | cons p fs ih => obtain ⟨k, v⟩ := p; simp [sortKeysFields, ih]

theorem jLookup_sortKeysFields (fs : List (String × JVal)) (k : String) :
    jLookup (sortKeysFields fs) k = (jLookup fs k).map sortKeysJ := by
  induction fs with
  | nil => rfl
  | cons p fs ih =>
      obtain ⟨k0, v0⟩ := p
      by_cases hk : k0 = k
      · subst hk; simp [sortKeysFields, jLookup]
      · simp [sortKeysFields, jLookup, hk, ih]

theorem map_fst_orderedInsert (p : String × JVal) (l : List (String × JVal)) :
    (List.orderedInsert (fun a b => strLe a.1 b.1 = true) p l).map Prod.fst
      = List.orderedInsert (fun a b => strLe a b = true) p.1 (l.map Prod.fst) := by
  induction l with
  | nil => rfl
  | cons q l ih =>
      by_cases h : strLe p.1 q.1 = true
      · simp [List.orderedInsert, h]
      · simp [List.orderedInsert, h, ih]

theorem map_fst_sortFields (fs : List (String × JVal)) :
    (sortFields fs).map Prod.fst = sortStr (fs.map Prod.fst) := by
  induction fs with
  | nil => rfl
  | cons p fs ih =>
      simp only [sortFields, sortStr, List.insertionSort] at *
      rw [map_fst_orderedInsert, ih]

theorem jLookup_perm {l l' : List (String × JVal)}
    (h : l.Perm l') (hn : (l.map Prod.fst).Nodup) (k : String) :
    jLookup l k = jLookup l' k := by
  induction h with
  | nil => rfl
  | cons p _ ih =>
      obtain ⟨k0, v0⟩ := p
      by_cases hk : k0 = k
      · subst hk; simp [jLookup]
      · simp only [List.map_cons, List.nodup_cons] at hn
        simp [jLookup, hk, ih hn.2]
  | swap p q l =>
      obtain ⟨k0, v0⟩ := p
      obtain ⟨k1, v1⟩ := q
      simp only [List.map_cons, List.nodup_cons, List.mem_cons] at hn
      by_cases h0 : k0 = k <;> by_cases h1 : k1 = k
      · exact absurd (h0.trans h1.symm).symm (by tauto)
      · subst h0; simp [jLookup, h1, Ne.symm h1]
      · subst h1; simp [jLookup, h0, Ne.symm h0]
      · simp [jLookup, h0, h1]
  | trans h1 h2 ih1 ih2 =>
      refine (ih1 hn).trans (ih2 ?_)
      exact ((h1.map Prod.fst).nodup_iff).mp hn

theorem assocExt : ∀ (A B : List (String × JVal)),
    A.map Prod.fst = B.map Prod.fst → (A.map Prod.fst).Nodup →
    (∀ k, jLookup A k = jLookup B k) → A = B := by
  intro A
  induction A with
  | nil =>
      intro B hk _ _
      cases B with
      | nil => rfl
      | cons q B => simp at hk
  | cons p A ih =>
      intro B hk hn hl
      obtain ⟨k0, v0⟩ := p
      cases B with
      | nil => simp at hk
      | cons q B =>
          obtain ⟨k1, v1⟩ := q
          simp only [List.map_cons, List.cons.injEq] at hk
          obtain ⟨hk01, hkrest⟩ := hk
          subst hk01
          have hv : v0 = v1 := by
            have := hl k0
            simpa [jLookup] using this
          subst hv
          simp only [List.map_cons, List.nodup_cons] at hn
          refine congrArg _ (ih B hkrest hn.2 ?_)
          intro k
          by_cases hk : k0 = k
          · subst hk
            have h1 : jLookup A k0 = none := by
              rw [jLookup_eq_none_iff]; exact hn.1
            have h2 : jLookup B k0 = none := by
              rw [jLookup_eq_none_iff, ← hkrest]; exact hn.1
            rw [h1, h2]
          · have := hl k
            simpa [jLookup, hk] using this

theorem mem_sortStr (l : List String) (k : String) : k ∈ sortStr l ↔ k ∈ l :=
  (List.perm_insertionSort _ l).mem_iff

/-! ### Key re-ordering is invisible to the plugin canonicalization -/

mutual

theorem sortKeysJ_eq_of_keyEquiv (a b : JVal) (h : keyEquiv a b = true) :
    sortKeysJ a = sortKeysJ b := by
  cases a <;> cases b <;> try (exfalso; revert h; simp [keyEquiv]; done)
  case jnull.jnull => rfl
  case jbool.jbool x y => simp only [keyEquiv, beq_iff_eq] at h; rw [h]
  case jnum.jnum x y => simp only [keyEquiv, beq_iff_eq] at h; rw [h]
  case jstr.jstr x y => simp only [keyEquiv, beq_iff_eq] at h; rw [h]
  case jarr.jarr xs ys =>
      have hx : keyEquivArr xs ys = true := by simpa [keyEquiv] using h
      simp only [sortKeysJ]
      rw [sortKeysArr_eq_of_keyEquivArr xs ys hx]
  case jobj.jobj fs gs =>
      have hco : (nodupKeysB fs = true ∧ nodupKeysB gs = true)
          ∧ sortStr (fs.map Prod.fst) = sortStr (gs.map Prod.fst)
          ∧ keyEquivFields fs gs = true := by
        simpa [keyEquiv, and_assoc] using h
      obtain ⟨⟨hf, hg⟩, hs, hkf⟩ := hco
      have hnf : (fs.map Prod.fst).Nodup := (nodupKeysB_iff fs).mp hf
      have hng : (gs.map Prod.fst).Nodup := (nodupKeysB_iff gs).mp hg
      simp only [sortKeysJ]
      refine congrArg JVal.jobj (assocExt _ _ ?_ ?_ ?_)
      · rw [map_fst_sortFields, map_fst_sortFields, map_fst_sortKeysFields,
          map_fst_sortKeysFields, hs]
      · rw [map_fst_sortFields, map_fst_sortKeysFields]
        exact ((List.perm_insertionSort _ _).nodup_iff).mpr hnf
      · intro k
        have permF : (sortFields (sortKeysFields fs)).Perm (sortKeysFields fs) :=
          List.perm_insertionSort _ _
        have permG : (sortFields (sortKeysFields gs)).Perm (sortKeysFields gs) :=
          List.perm_insertionSort _ _
        have hnodupSF : ((sortFields (sortKeysFields fs)).map Prod.fst).Nodup := by
          rw [map_fst_sortFields, map_fst_sortKeysFields]
          exact ((List.perm_insertionSort _ _).nodup_iff).mpr hnf
        have hnodupSG : ((sortFields (sortKeysFields gs)).map Prod.fst).Nodup := by
          rw [map_fst_sortFields, map_fst_sortKeysFields]
          exact ((List.perm_insertionSort _ _).nodup_iff).mpr hng
        rw [jLookup_perm permF hnodupSF k, jLookup_perm permG hnodupSG k,
            jLookup_sortKeysFields, jLookup_sortKeysFields]
        cases hv : jLookup fs k with
        | some v =>
            obtain ⟨w, hw, hvw⟩ := keyEquivFields_sortKeys fs gs hkf k v hv
            rw [hw]
            simpa using hvw
        | none =>
            have hgnone : jLookup gs k = none := by
              rw [jLookup_eq_none_iff]
              intro hmem
              have hmem2 : k ∈ sortStr (gs.map Prod.fst) :=
                (mem_sortStr _ _).mpr hmem
              rw [← hs] at hmem2
              exact ((jLookup_eq_none_iff fs k).mp hv)
                ((mem_sortStr _ _).mp hmem2)
            rw [hgnone]
termination_by sizeOf a

theorem sortKeysArr_eq_of_keyEquivArr (xs ys : List JVal)
    (h : keyEquivArr xs ys = true) : sortKeysArr xs = sortKeysArr ys := by
  cases xs <;> cases ys <;> try (exfalso; revert h; simp [keyEquivArr]; done)
  case nil.nil => rfl
  case cons.cons x xs y ys =>
      have hx : keyEquiv x y = true ∧ keyEquivArr xs ys = true := by
        simpa [keyEquivArr] using h
      simp only [sortKeysArr]
      rw [sortKeysJ_eq_of_keyEquiv x y hx.1, sortKeysArr_eq_of_keyEquivArr xs ys hx.2]
termination_by sizeOf xs

theorem keyEquivFields_sortKeys : ∀ (fs gs : List (String × JVal)),
    keyEquivFields fs gs = true → ∀ k v, jLookup fs k = some v →
      ∃ w, jLookup gs k = some w ∧ sortKeysJ v = sortKeysJ w
  | [], _, _ => by intro k v hv; simp [jLookup] at hv
  | (k0, v0) :: fs, gs, h => by
      have h' : (match jLookup gs k0 with
          | some w => keyEquiv v0 w
          | none => false) = true ∧ keyEquivFields fs gs = true := by
        simpa [keyEquivFields] using h
      obtain ⟨h0, hrest⟩ := h'
      intro k v hv
      by_cases hk : k0 = k
      · subst hk
        have hv0 : v0 = v := by simpa [jLookup] using hv
        subst hv0
        cases hw : jLookup gs k0 with
        | some w =>
            rw [hw] at h0
            exact ⟨w, rfl, sortKeysJ_eq_of_keyEquiv v0 w h0⟩
        | none => rw [hw] at h0; exact absurd h0 (by simp)
      · have hv' : jLookup fs k = some v := by simpa [jLookup, hk] using hv
        exact keyEquivFields_sortKeys fs gs hrest k v hv'
termination_by fs => sizeOf fs

end

/-! ### Key re-ordering is invisible to the API replacer serialization -/

theorem map_fst_projectFields (props : List String) (fs : List (String × JVal)) :
    (projectFields props fs).map Prod.fst = fs.map Prod.fst := by
  induction fs with
  | nil => rfl
  | cons p fs ih => obtain ⟨k, v⟩ := p; simp [projectFields, ih]

theorem jLookup_projectFields (props : List String) (fs : List (String × JVal))
    (k : String) :
    jLookup (projectFields props fs) k = (jLookup fs k).map (projectJ props) := by
  induction fs with
  | nil => rfl
  | cons p fs ih =>
      obtain ⟨k0, v0⟩ := p
      by_cases hk : k0 = k
      · subst hk; simp [projectFields, jLookup]
      · simp [projectFields, jLookup, hk, ih]

theorem filter_key_eq_nil (fs : List (String × JVal)) (k : String)
    (h : k ∉ fs.map Prod.fst) : fs.filter (fun p => p.1 == k) = [] := by
  induction fs with
  | nil => rfl
  | cons p fs ih =>
      obtain ⟨k0, v0⟩ := p
      simp only [List.map_cons, List.mem_cons] at h
      push_neg at h
      have hb : (k0 == k) = false := by simp [Ne.symm h.1]
      simp [List.filter, hb, ih h.2]

theorem filter_key_of_nodup (fs : List (String × JVal)) (k : String)
    (hn : (fs.map Prod.fst).Nodup) :
    fs.filter (fun p => p.1 == k)
      = (match jLookup fs k with
         | some v => [(k, v)]
         | none => []) := by
  induction fs with
  | nil => rfl
  | cons p fs ih =>
      obtain ⟨k0, v0⟩ := p
      simp only [List.map_cons, List.nodup_cons] at hn
      by_cases hk : k0 = k
      · subst hk
        simp only [jLookup, beq_self_eq_true, if_pos rfl]
        simp [List.filter, filter_key_eq_nil fs k0 hn.1]
      · have hb : (k0 == k) = false := by simp [hk]
        simp only [jLookup, List.filter, hb]
        simpa using ih hn.2

theorem orderByProps_congr (props : List String)
    (fs gs : List (String × JVal))
    (h : ∀ k, fs.filter (fun p => p.1 == k) = gs.filter (fun p => p.1 == k)) :
    orderByProps props fs = orderByProps props gs := by
  unfold orderByProps
  induction props with
  | nil => rfl
  | cons k props ih => simp [List.flatMap_cons, h k, ih]

mutual

theorem projectJ_eq_of_keyEquiv (props : List String) (a b : JVal)
    (h : keyEquiv a b = true) : projectJ props a = projectJ props b := by
  cases a <;> cases b <;> try (exfalso; revert h; simp [keyEquiv]; done)
  case jnull.jnull => rfl
  case jbool.jbool x y => simp only [keyEquiv, beq_iff_eq] at h; rw [h]
  case jnum.jnum x y => simp only [keyEquiv, beq_iff_eq] at h; rw [h]
  case jstr.jstr x y => simp only [keyEquiv, beq_iff_eq] at h; rw [h]
  case jarr.jarr xs ys =>
      have hx : keyEquivArr xs ys = true := by simpa [keyEquiv] using h
      simp only [projectJ]
      rw [projectArr_eq_of_keyEquivArr props xs ys hx]
  case jobj.jobj fs gs =>
      have hco : (nodupKeysB fs = true ∧ nodupKeysB gs = true)
          ∧ sortStr (fs.map Prod.fst) = sortStr (gs.map Prod.fst)
          ∧ keyEquivFields fs gs = true := by
        simpa [keyEquiv, and_assoc] using h
      obtain ⟨⟨hf, hg⟩, hs, hkf⟩ := hco
      have hnf : (fs.map Prod.fst).Nodup := (nodupKeysB_iff fs).mp hf
      have hng : (gs.map Prod.fst).Nodup := (nodupKeysB_iff gs).mp hg
      simp only [projectJ]
      refine congrArg JVal.jobj (orderByProps_congr props _ _ ?_)
      intro k
      rw [filter_key_of_nodup _ k (by rw [map_fst_projectFields]; exact hnf),
          filter_key_of_nodup _ k (by rw [map_fst_projectFields]; exact hng),
          jLookup_projectFields, jLookup_projectFields]
      cases hv : jLookup fs k with
      | some v =>
          obtain ⟨w, hw, hvw⟩ := keyEquivFields_project props fs gs hkf k v hv
          rw [hw]
          simp [hvw]
      | none =>
          have hgnone : jLookup gs k = none := by
            rw [jLookup_eq_none_iff]
            intro hmem
            have hmem2 : k ∈ sortStr (gs.map Prod.fst) :=
              (mem_sortStr _ _).mpr hmem
            rw [← hs] at hmem2
            exact ((jLookup_eq_none_iff fs k).mp hv)
              ((mem_sortStr _ _).mp hmem2)
          rw [hgnone]
termination_by sizeOf a

theorem projectArr_eq_of_keyEquivArr (props : List String) (xs ys : List JVal)
    (h : keyEquivArr xs ys = true) :
    projectArr props xs = projectArr props ys := by
  cases xs <;> cases ys <;> try (exfalso; revert h; simp [keyEquivArr]; done)
  case nil.nil => rfl
  case cons.cons x xs y ys =>
      have hx : keyEquiv x y = true ∧ keyEquivArr xs ys = true := by
        simpa [keyEquivArr] using h
      simp only [projectArr]
      rw [projectJ_eq_of_keyEquiv props x y hx.1,
          projectArr_eq_of_keyEquivArr props xs ys hx.2]
termination_by sizeOf xs

theorem keyEquivFields_project (props : List String) :
    ∀ (fs gs : List (String × JVal)),
    keyEquivFields fs gs = true → ∀ k v, jLookup fs k = some v →
      ∃ w, jLookup gs k = some w ∧ projectJ props v = projectJ props w
  | [], _, _ => by intro k v hv; simp [jLookup] at hv
  | (k0, v0) :: fs, gs, h => by
      have h' : (match jLookup gs k0 with
          | some w => keyEquiv v0 w
          | none => false) = true ∧ keyEquivFields fs gs = true := by
        simpa [keyEquivFields] using h
      obtain ⟨h0, hrest⟩ := h'
      intro k v hv
      by_cases hk : k0 = k
      · subst hk
        have hv0 : v0 = v := by simpa [jLookup] using hv
        subst hv0
        cases hw : jLookup gs k0 with
        | some w =>
            rw [hw] at h0
            exact ⟨w, rfl, projectJ_eq_of_keyEquiv props v0 w h0⟩
        | none => rw [hw] at h0; exact absurd h0 (by simp)
      · have hv' : jLookup fs k = some v := by simpa [jLookup, hk] using hv
        exact keyEquivFields_project props fs gs hrest k v hv'
termination_by fs => sizeOf fs

end

/-- `keyEquiv` forces equal sorted top-level key lists. -/
theorem sortStr_topKeys_eq_of_keyEquiv (a b : JVal) (h : keyEquiv a b = true) :
    sortStr (topKeys a) = sortStr (topKeys b) := by
  cases a <;> cases b <;> try (exfalso; revert h; simp [keyEquiv]; done)
  case jobj.jobj fs gs =>
      have hco : (nodupKeysB fs = true ∧ nodupKeysB gs = true)
          ∧ sortStr (fs.map Prod.fst) = sortStr (gs.map Prod.fst)
          ∧ keyEquivFields fs gs = true := by
        simpa [keyEquiv, and_assoc] using h
      simpa [topKeys] using hco.2.1
  all_goals rfl

/-! ## Verification (plugin `verifyHash`, API `POST /v1/verify`) -/

/-- Eliza plugin `verifyHash` (provider.ts): length check, then a
constant-time fold of `diff |= computed[i] ^ commitmentHash[i]`. -/
def verifyHashP (trace : JVal) (commitmentHash : List Nat) : Bool :=
  let computed := hashTraceP trace
  if computed.length ≠ commitmentHash.length then false
  else (List.zip computed commitmentHash).foldl
    (fun diff p => diff ||| (p.1 ^^^ p.2)) 0 == 0

/-- Two lowercase hex digits per byte (`Buffer.toString("hex")`). -/
def byteToHex (b : Nat) : List Char := [hexDigitCh (b / 16 % 16), hexDigitCh (b % 16)]

def bytesToHexChars (bs : List Nat) : List Char :=
  bs.foldr (fun b acc => byteToHex b ++ acc) []

def bytesToHex (bs : List Nat) : String := String.mk (bytesToHexChars bs)

/-- The API verify endpoint's comparison (api/src/index.ts `POST
/v1/verify`): `computedHash === storedHash` on hex strings. -/
def apiVerifyValid (reasoning : JVal) (storedHash : List Nat) : Bool :=
  bytesToHex (hashTraceApi reasoning) == bytesToHex storedHash

theorem or_eq_zero (a b : Nat) : a ||| b = 0 ↔ a = 0 ∧ b = 0 := by
  constructor
  · intro h
    have hab : ∀ i, a.testBit i = false ∧ b.testBit i = false := by
      intro i
      have h1 : (a ||| b).testBit i = false := by rw [h]; exact Nat.zero_testBit i
      simpa [Nat.testBit_or] using h1
    exact ⟨Nat.eq_of_testBit_eq (fun i => by rw [(hab i).1, Nat.zero_testBit]),
           Nat.eq_of_testBit_eq (fun i => by rw [(hab i).2, Nat.zero_testBit])⟩
  · rintro ⟨rfl, rfl⟩
    rfl

theorem foldl_diff_eq_zero (l : List (Nat × Nat)) :
    ∀ d, (l.foldl (fun diff p => diff ||| (p.1 ^^^ p.2)) d = 0
      ↔ (d = 0 ∧ ∀ p ∈ l, p.1 = p.2)) := by
  induction l with
  | nil => simp
  | cons p l ih =>
      intro d
      simp only [List.foldl_cons, ih, or_eq_zero, Nat.xor_eq_zero, List.mem_cons]
      constructor
      · rintro ⟨⟨hd, hp⟩, hrest⟩
        exact ⟨hd, fun q hq => by rcases hq with rfl | hq; exact hp; exact hrest q hq⟩
      · rintro ⟨hd, hall⟩
        exact ⟨⟨hd, hall p (Or.inl rfl)⟩, fun q hq => hall q (Or.inr hq)⟩

theorem eq_iff_len_zip : ∀ (xs ys : List Nat),
    (xs.length = ys.length ∧ ∀ p ∈ List.zip xs ys, p.1 = p.2) ↔ xs = ys := by
  intro xs
  induction xs with
  | nil =>
      intro ys
      cases ys <;> simp
  | cons x xs ih =>
      intro ys
      cases ys with
      | nil => simp
      | cons y ys =>
          simp only [List.length_cons, List.zip_cons_cons, List.mem_cons,
            List.cons.injEq]
          constructor
          · rintro ⟨hl, hall⟩
            exact ⟨hall (x, y) (Or.inl rfl),
              (ih ys).mp ⟨by omega, fun p hp => hall p (Or.inr hp)⟩⟩
          · rintro ⟨rfl, rfl⟩
            refine ⟨rfl, ?_⟩
            intro p hp
            rcases hp with rfl | hp
            · rfl
            · exact ((ih xs).mpr rfl).2 p hp

theorem hexDigitCh_inj : ∀ a < 16, ∀ b < 16, hexDigitCh a = hexDigitCh b → a = b := by
  decide

theorem bytesToHexChars_inj : ∀ (xs ys : List Nat), (∀ b ∈ xs, b < 256) →
    (∀ b ∈ ys, b < 256) → bytesToHexChars xs = bytesToHexChars ys → xs = ys := by
  intro xs
  induction xs with
  | nil =>
      intro ys _ _ h
      cases ys with
      | nil => rfl
      | cons y ys => simp [bytesToHexChars, byteToHex] at h
  | cons x xs ih =>
      intro ys hx hy h
      cases ys with
      | nil => simp [bytesToHexChars, byteToHex] at h
      | cons y ys =>
          simp only [bytesToHexChars, byteToHex, List.foldr_cons,
            List.cons_append, List.nil_append, List.cons.injEq] at h
          obtain ⟨h1, h2, h3⟩ := h
          have hxb : x < 256 := hx x (by simp)
          have hyb : y < 256 := hy y (by simp)
          have e1 : x / 16 % 16 = y / 16 % 16 :=
            hexDigitCh_inj _ (by omega) _ (by omega) h1
          have e2 : x % 16 = y % 16 :=
            hexDigitCh_inj _ (by omega) _ (by omega) h2
          have hxy : x = y := by omega
          subst hxy
          exact congrArg _ (ih ys (fun b hb => hx b (by simp [hb]))
            (fun b hb => hy b (by simp [hb])) h3)

/-! ## Claim C1 and C2 theorems -/

/-- C1: re-ordering object keys (at any depth) of a reasoning trace does
not change the SHA-256 hash computed by the Verify-side canonical
hashing — both in the Eliza plugin implementation (`hashTraceP`,
recursive key sort) and in the verification API implementation
(`hashTraceApi`, `JSON.stringify` with the sorted top-level key list as
array replacer). -/
theorem C1_canonical_hash_invariant (a b : JVal) (h : keyEquiv a b = true) :
    hashTraceP a = hashTraceP b ∧ hashTraceApi a = hashTraceApi b := by
  constructor
  · unfold hashTraceP
    rw [sortKeysJ_eq_of_keyEquiv a b h]
  · unfold hashTraceApi
    rw [sortStr_topKeys_eq_of_keyEquiv a b h, projectJ_eq_of_keyEquiv _ a b h]

def traceExA : JVal :=
  .jobj [("b", .jnum 1), ("a", .jobj [("z", .jnum 2), ("y", .jnum 3)])]

def traceExB : JVal :=
  .jobj [("a", .jobj [("y", .jnum 3), ("z", .jnum 2)]), ("b", .jnum 1)]

theorem C1_canonical_hash_invariant_witness :
    keyEquiv traceExA traceExB = true
      ∧ hashTraceP traceExA = hashTraceP traceExB
      ∧ hashTraceApi traceExA = hashTraceApi traceExB :=
  ⟨by decide, (C1_canonical_hash_invariant traceExA traceExB (by decide)).1,
    (C1_canonical_hash_invariant traceExA traceExB (by decide)).2⟩

/-- C2: Verify returns `valid = true` exactly when the SHA-256 hash of
the canonically serialized trace equals the stored commitment hash, for
both the plugin comparison (`verifyHashP`, constant-time loop) and the
API endpoint comparison (`apiVerifyValid`, hex-string equality); a
mismatch yields the boolean `false`, and both comparisons are total
functions — they never throw. -/
theorem C2_verify_valid_iff (trace : JVal) (stored : List Nat)
    (hb : ∀ b ∈ stored, b < 256) :
    (verifyHashP trace stored = true ↔ hashTraceP trace = stored)
    ∧ (apiVerifyValid trace stored = true ↔ hashTraceApi trace = stored) := by
  constructor
  · unfold verifyHashP
    by_cases hl : (hashTraceP trace).length = stored.length
    · rw [if_neg (by simp [hl])]
      rw [beq_iff_eq, foldl_diff_eq_zero]
      simp only [true_and]
      constructor
      · intro hall
        exact (eq_iff_len_zip _ _).mp ⟨hl, hall⟩
      · intro heq
        exact ((eq_iff_len_zip _ _).mpr heq).2
    · rw [if_pos hl]
      simp only [Bool.false_eq_true, false_iff]
      intro heq
      exact hl (congrArg List.length heq)
  · unfold apiVerifyValid bytesToHex
    rw [beq_iff_eq]
    constructor
    · intro h
      exact bytesToHexChars_inj _ _ (sha256_bytes_lt _) hb
        (congrArg String.data h)
    · intro h
      rw [h]

theorem C2_verify_valid_iff_witness :
    (∀ b ∈ [(0 : Nat)], b < 256)
      ∧ ((verifyHashP .jnull [0] = true ↔ hashTraceP .jnull = [0])
        ∧ (apiVerifyValid .jnull [0] = true ↔ hashTraceApi .jnull = [0])) :=
  ⟨by decide, C2_verify_valid_iff .jnull [0] (by decide)⟩

/-! ## PDA seed derivation (claim C3)

`findProgramAddressSync(seeds, programId)` is a fixed function of its
seed list; the derivation inputs of each component are therefore
modelled as the seed byte lists each component passes to it. -/

/-- Eliza plugin `deriveCommitmentPDA` (provider.ts): seeds are the tag
`"commitment"`, the agent profile address, and the nonce as 8 bytes LE. -/
def commitmentSeedsPlugin (agentProfile : List Nat) (nonce : Nat) :
    List (List Nat) :=
  [utf8Bytes "commitment", agentProfile, u64le nonce]

/-- API commitment derivation (api/src/index.ts, `GET
/v1/agent/:authority/commitments`): same seed construction. -/
def commitmentSeedsApi (agentPda : List Nat) (nonce : Nat) : List (List Nat) :=
  [utf8Bytes "commitment", agentPda, u64le nonce]

/-- MCP server `deriveCommitmentPda` (mcp-server): seeds are the tag,
the RAW AUTHORITY key, and a caller-chosen string commit-id. -/
def commitmentSeedsMcp (authority : List Nat) (commitId : String) :
    List (List Nat) :=
  [utf8Bytes "commitment", authority, utf8Bytes commitId]

/-- Zero-setup SDK script `deriveCommitmentPDA` (sdk/register-agent.ts):
seeds are the tag, the agent PDA, and the 32-byte reasoning hash. -/
def commitmentSeedsSdkScript (agentPda : List Nat) (reasoningHash : List Nat) :
    List (List Nat) :=
  [utf8Bytes "commitment", agentPda, reasoningHash]

def leVal (bs : List Nat) : Nat := bs.foldr (fun b acc => b + 256 * acc) 0

theorem leVal_u64le (n : Nat) (h : n < 18446744073709551616) :
    leVal (u64le n) = n := by
  simp only [u64le, leVal, List.foldr_cons, List.foldr_nil]
  omega

theorem leVal_u32le (n : Nat) (h : n < 4294967296) : leVal (u32le n) = n := by
  simp only [u32le, leVal, List.foldr_cons, List.foldr_nil]
  omega

/-- C3 (corrected): in the Eliza plugin and the API, the commitment seed
tuple is exactly the pure function of (agent entry address, nonce) the
claim describes — the two constructions coincide, and the map is
injective, so the derived address depends on exactly those two inputs. -/
theorem C3_commitment_derivation_pure (agent agent2 : List Nat)
    (nonce nonce2 : Nat) (hn : nonce < 18446744073709551616)
    (hn2 : nonce2 < 18446744073709551616) :
    commitmentSeedsApi agent nonce = commitmentSeedsPlugin agent nonce
    ∧ commitmentSeedsPlugin agent nonce
        = [utf8Bytes "commitment", agent, u64le nonce]
    ∧ (commitmentSeedsPlugin agent nonce = commitmentSeedsPlugin agent2 nonce2
        → agent = agent2 ∧ nonce = nonce2) := by
  refine ⟨rfl, rfl, ?_⟩
  intro h
  simp only [commitmentSeedsPlugin, List.cons.injEq, and_true] at h
  refine ⟨h.2.1, ?_⟩
  have := congrArg leVal h.2.2
  rwa [leVal_u64le nonce hn, leVal_u64le nonce2 hn2] at this

theorem C3_commitment_derivation_pure_witness :
    (0 : Nat) < 18446744073709551616
      ∧ (commitmentSeedsApi [7] 0 = commitmentSeedsPlugin [7] 0
        ∧ commitmentSeedsPlugin [7] 0 = [utf8Bytes "commitment", [7], u64le 0]
        ∧ (commitmentSeedsPlugin [7] 0 = commitmentSeedsPlugin [7] 0
            → [(7 : Nat)] = [7] ∧ (0 : Nat) = 0)) :=
  ⟨by decide, C3_commitment_derivation_pure [7] [7] 0 0 (by decide) (by decide)⟩

def authEx : List Nat := List.replicate 32 7

/-- C3 counterexample: the MCP server's commitment derivation takes the
raw authority key and a caller-chosen commit-id; with the agent and
nonce fixed, two different commit-ids give different seed tuples, so the
address is NOT a pure function of (agent entry address, nonce) in every
component. -/
theorem C3_counterexample :
    commitmentSeedsMcp authEx "a" ≠ commitmentSeedsMcp authEx "b"
      ∧ commitmentSeedsMcp authEx "a"
          = [utf8Bytes "commitment", authEx, utf8Bytes "a"] := by
  exact ⟨by decide, rfl⟩

/-! ## Commit instruction wire encoding (claim C7) -/

/-- Anchor discriminator of `commit_reasoning`. -/
def commitReasoningDisc : List Nat := [163, 80, 25, 135, 94, 49, 218, 44]

/-- provider.ts `encodeString`: 4-byte LE byte length + UTF-8 bytes. -/
def encodeStringP (s : String) : List Nat :=
  u32le (utf8Bytes s).length ++ utf8Bytes s

/-- Eliza plugin `buildCommitReasoningIx` instruction data:
discriminator, 32-byte hash, Borsh string, u8 confidence, u64 LE nonce. -/
def commitIxDataPlugin (commitmentHash : List Nat) (actionType : String)
    (confidence : Nat) (nonce : Nat) : List Nat :=
  commitReasoningDisc ++ commitmentHash ++ encodeStringP actionType
    ++ [confidence % 256] ++ u64le nonce

/-- UTF-8 encode characters while they fit in `cap` bytes
(`Buffer.write` stops at a full character boundary). -/
def utf8Fit (cap : Nat) : List Char → List Nat
  | [] => []
  | c :: cs =>
      let e := utf8Char c
      if e.length ≤ cap then e ++ utf8Fit (cap - e.length) cs else []

/-- MCP server `encodeString`: allocates `4 + s.length` (UTF-16 units)
zero-filled bytes, writes the length, then writes UTF-8 while it fits. -/
def encodeStringMcp (s : String) : List Nat :=
  let cap := utf16Len s
  let w := utf8Fit cap s.data
  u32le cap ++ w ++ List.replicate (cap - w.length) 0

/-- MCP server commit instruction data: discriminator, hash, commit-id
string — no action type, no confidence, no nonce. -/
def commitDataMcp (hash : List Nat) (commitId : String) : List Nat :=
  commitReasoningDisc ++ hash ++ encodeStringMcp commitId

/-- Zero-setup SDK script commit instruction data: a different
discriminator followed by the hash only. -/
def commitDataSdkScript (hash : List Nat) : List Nat :=
  [29, 195, 70, 223, 23, 131, 66, 157] ++ hash

/-- Prediction-challenge script commit instruction data: discriminator,
32-byte zero-padded commit-id, hash, one action-type byte, one
confidence byte. -/
def commitDataPrediction (commitIdBuf32 hash : List Nat)
    (actionTypeByte confidence : Nat) : List Nat :=
  commitReasoningDisc ++ commitIdBuf32 ++ hash
    ++ [actionTypeByte % 256] ++ [confidence % 256]

/-- Decoder for the wire format stated by the claim: 8-byte
discriminator, then exactly a 32-byte hash, a 4-byte LE length plus
that many action-type bytes, a confidence byte, and an 8-byte LE nonce. -/
def parseClaimedCommit (d : List Nat) :
    Option (List Nat × List Nat × Nat × Nat) :=
  if d.take 8 = commitReasoningDisc ∧ 44 ≤ d.length then
    let hash := (d.drop 8).take 32
    let len := leVal ((d.drop 40).take 4)
    let rest := d.drop 44
    if rest.length = len + 9 then
      some (hash, rest.take len, (rest.drop len).headD 0,
        leVal ((rest.drop len).drop 1))
    else none
  else none

/-- C7 (corrected, positive part): the Eliza plugin's Commit data byte
string follows the claimed format exactly — decoding it recovers the
hash, the UTF-8 action type, the confidence and the nonce. -/
theorem C7_plugin_commit_encoding (hash : List Nat) (actionType : String)
    (confidence nonce : Nat) (hh : hash.length = 32) (hc : confidence < 256)
    (hn : nonce < 18446744073709551616)
    (hat : (utf8Bytes actionType).length < 4294967296) :
    parseClaimedCommit (commitIxDataPlugin hash actionType confidence nonce)
      = some (hash, utf8Bytes actionType, confidence, nonce) := by
  have hassoc : commitIxDataPlugin hash actionType confidence nonce
      = commitReasoningDisc ++ (hash ++ (u32le (utf8Bytes actionType).length
          ++ (utf8Bytes actionType ++ ([confidence % 256] ++ u64le nonce)))) := by
    simp [commitIxDataPlugin, encodeStringP, List.append_assoc]
  set d := commitIxDataPlugin hash actionType confidence nonce with hd
  have t8 : d.take 8 = commitReasoningDisc := by
    rw [hassoc]; exact List.take_left' rfl
  have d8 : d.drop 8 = hash ++ (u32le (utf8Bytes actionType).length
      ++ (utf8Bytes actionType ++ ([confidence % 256] ++ u64le nonce))) := by
    rw [hassoc]; exact List.drop_left' rfl
  have d40 : d.drop 40 = u32le (utf8Bytes actionType).length
      ++ (utf8Bytes actionType ++ ([confidence % 256] ++ u64le nonce)) := by
    rw [show (40 : Nat) = 8 + 32 from rfl, ← List.drop_drop, d8]
    exact List.drop_left' hh
  have d44 : d.drop 44 = utf8Bytes actionType
      ++ ([confidence % 256] ++ u64le nonce) := by
    rw [show (44 : Nat) = 40 + 4 from rfl, ← List.drop_drop, d40]
    exact List.drop_left' rfl
  have e2 : (u32le (utf8Bytes actionType).length).length = 4 := rfl
  have e3 : (u64le nonce).length = 8 := rfl
  have hlen : 44 ≤ d.length := by
    rw [hassoc]
    simp only [List.length_append, hh, e2, e3]
    have e1 : commitReasoningDisc.length = 8 := rfl
    rw [e1]
    simp only [List.length_cons, List.length_nil]
    omega
  have ht4 : List.take 4 (u32le (utf8Bytes actionType).length
      ++ (utf8Bytes actionType ++ ([confidence % 256] ++ u64le nonce)))
      = u32le (utf8Bytes actionType).length := List.take_left' rfl
  have hlenEq : leVal ((d.drop 40).take 4) = (utf8Bytes actionType).length := by
    rw [d40, ht4, leVal_u32le _ hat]
  have hrestLen : (d.drop 44).length = leVal ((d.drop 40).take 4) + 9 := by
    rw [d44, hlenEq]
    simp only [List.length_append, List.length_cons, List.length_nil, e3]
  have ht32 : List.take 32 (hash ++ (u32le (utf8Bytes actionType).length
      ++ (utf8Bytes actionType ++ ([confidence % 256] ++ u64le nonce))))
      = hash := List.take_left' hh
  have htA : List.take (utf8Bytes actionType).length (utf8Bytes actionType
      ++ ([confidence % 256] ++ u64le nonce)) = utf8Bytes actionType :=
    List.take_left' rfl
  have hdA : List.drop (utf8Bytes actionType).length (utf8Bytes actionType
      ++ ([confidence % 256] ++ u64le nonce)) = [confidence % 256] ++ u64le nonce :=
    List.drop_left' rfl
  unfold parseClaimedCommit
  rw [if_pos ⟨t8, hlen⟩, if_pos hrestLen, hlenEq, d44, d8, ht32, htA, hdA]
  simp [Nat.mod_eq_of_lt hc, leVal_u64le nonce hn]

theorem C7_plugin_commit_encoding_witness :
    (([(1 : Nat)] ++ List.replicate 31 0).length = 32 ∧ (75 : Nat) < 256
        ∧ (3 : Nat) < 18446744073709551616
        ∧ (utf8Bytes "trade").length < 4294967296)
      ∧ parseClaimedCommit (commitIxDataPlugin ([1] ++ List.replicate 31 0)
          "trade" 75 3)
        = some ([1] ++ List.replicate 31 0, utf8Bytes "trade", 75, 3) :=
  ⟨by decide, C7_plugin_commit_encoding ([1] ++ List.replicate 31 0) "trade"
    75 3 (by decide) (by decide) (by decide) (by decide)⟩

def hashEx : List Nat := List.replicate 32 1

/-- C7 counterexample: the MCP server's, zero-setup SDK script's, and
prediction-challenge script's Commit instruction data do not follow the
claimed `[hash][action_type][confidence u8][nonce u64 LE]` layout: at
concrete inputs the claimed-format decoder rejects all three byte
strings, so not every component builds Commit instructions in the
claimed encoding. -/
theorem C7_counterexample :
    parseClaimedCommit (commitDataMcp hashEx "trade") = none
      ∧ parseClaimedCommit (commitDataSdkScript hashEx) = none
      ∧ parseClaimedCommit
          (commitDataPrediction (utf8Fit 32 "pred-1".data
            ++ List.replicate 26 0) hashEx 0 60) = none := by
  refine ⟨by decide, by decide, by decide⟩

/-! ## The on-chain program, modelled from the spec

Modelled from the spec: the Anchor program itself (axiom-program) is not
under src/ — only its tests, discriminators, and clients are — so the
Register/Commit/Reveal state machine below follows spec sections 3, 4.1,
4.2, 6 and 7.  Addresses are pure injective functions of the identity
fields (spec "Address derivation invariant"), so the model keys the
agent map by the authority and the commitment map by (agent address,
nonce). -/

structure AgentEntry where
  authority : Nat
  name : String
  total_commitments : Nat
  total_verified : Nat
  created_at : Int
deriving Repr, DecidableEq

structure CommitmentRecord where
  agent : Nat
  authority : Nat
  commitment_hash : List Nat
  action_type : String
  confidence : Nat
  nonce : Nat
  commit_timestamp : Int
  revealed : Bool
  reasoning_uri : Option String
deriving Repr, DecidableEq

inductive ProtoErr where
  | AlreadyRegistered
  | NameTooLong
  | AgentNotFound
  | InvalidNonce
  | ConfidenceOutOfRange
  | ActionTypeTooLong
  | CommitmentNotFound
  | Unauthorized
  | AlreadyRevealed
  | UriTooLong
deriving Repr, DecidableEq

structure ChainState where
  agents : List (Nat × AgentEntry)
  commitments : List ((Nat × Nat) × CommitmentRecord)
deriving Repr, DecidableEq

def initialState : ChainState := ⟨[], []⟩

/-- Replace the value stored under key `k` (no-op if absent). -/
def setA {κ α : Type} [BEq κ] (l : List (κ × α)) (k : κ) (e : α) :
    List (κ × α) :=
  l.map (fun p => match p.1 == k with
    | true => (k, e)
    | false => p)

def MAX_NAME_BYTES : Nat := 64

/-- Modelled from the spec: bound for `action_type` ("bounded string
tag"; the numeric bound is not fixed by the spec). -/
def MAX_ACTION_TYPE_BYTES : Nat := 64

/-- Modelled from the spec: bound for `reasoning_uri`. -/
def MAX_URI_BYTES : Nat := 256

/-- Modelled from the spec: Register(authority, name). -/
def registerOp (s : ChainState) (authority : Nat) (name : String)
    (now : Int) : Except ProtoErr ChainState :=
  if (s.agents.lookup authority).isSome then .error .AlreadyRegistered
  else if MAX_NAME_BYTES < (utf8Bytes name).length then .error .NameTooLong
  else .ok { s with agents :=
    (authority, ⟨authority, name, 0, 0, now⟩) :: s.agents }

/-- Modelled from the spec: Commit(authority, hash, action_type,
confidence, nonce). -/
def commitOp (s : ChainState) (authority : Nat) (hash : List Nat)
    (actionType : String) (confidence : Nat) (nonce : Nat) (now : Int) :
    Except ProtoErr ChainState :=
  match s.agents.lookup authority with
  | none => .error .AgentNotFound
  | some agent =>
      if nonce ≠ agent.total_commitments then .error .InvalidNonce
      else if 100 < confidence then .error .ConfidenceOutOfRange
      else if MAX_ACTION_TYPE_BYTES < (utf8Bytes actionType).length then
        .error .ActionTypeTooLong
      else .ok
        { agents := setA s.agents authority
            { agent with total_commitments := agent.total_commitments + 1 },
          commitments := ((authority, nonce),
            ⟨authority, authority, hash, actionType, confidence, nonce,
              now, false, none⟩) :: s.commitments }

/-- Modelled from the spec: Reveal(caller, commitment_address, uri). -/
def revealOp (s : ChainState) (caller : Nat) (addr : Nat × Nat)
    (uri : String) : Except ProtoErr ChainState :=
  match s.commitments.lookup addr with
  | none => .error .CommitmentNotFound
  | some r =>
      if r.authority ≠ caller then .error .Unauthorized
      else if r.revealed then .error .AlreadyRevealed
      else if MAX_URI_BYTES < (utf8Bytes uri).length then .error .UriTooLong
      else match s.agents.lookup r.agent with
        | none => .error .AgentNotFound
        | some agent => .ok
            { agents := setA s.agents r.agent
                { agent with total_verified := agent.total_verified + 1 },
              commitments := setA s.commitments addr
                { r with revealed := true, reasoning_uri := some uri } }

instance {e a : Type} [DecidableEq e] [DecidableEq a] :
    DecidableEq (Except e a) := fun x y =>
  match x, y with
  | .ok v, .ok w =>
      if h : v = w then isTrue (by rw [h])
      else isFalse (fun hh => h (Except.ok.inj hh))
  | .error v, .error w =>
      if h : v = w then isTrue (by rw [h])
      else isFalse (fun hh => h (Except.error.inj hh))
  | .ok _, .error _ => isFalse (fun hh => Except.noConfusion hh)
  | .error _, .ok _ => isFalse (fun hh => Except.noConfusion hh)

inductive Op where
  | register (authority : Nat) (name : String) (now : Int)
  | commit (authority : Nat) (hash : List Nat) (actionType : String)
      (confidence : Nat) (nonce : Nat) (now : Int)
  | reveal (caller : Nat) (addr : Nat × Nat) (uri : String)
deriving Repr, DecidableEq

def step (s : ChainState) : Op → Except ProtoErr ChainState
  | .register authority name now => registerOp s authority name now
  | .commit authority hash actionType confidence nonce now =>
      commitOp s authority hash actionType confidence nonce now
  | .reveal caller addr uri => revealOp s caller addr uri

/-- A failed operation leaves the state unchanged (spec section 7). -/
def applyOp (s : ChainState) (op : Op) : ChainState :=
  match step s op with
  | .ok s2 => s2
  | .error _ => s

def runOps (s : ChainState) (ops : List Op) : ChainState := ops.foldl applyOp s

inductive Reachable : ChainState → Prop where
  | init : Reachable initialState
  | next (s : ChainState) (op : Op) : Reachable s → Reachable (applyOp s op)

/-- Modelled from the spec: the accountability score in basis points,
`total_verified * 10000 / total_commitments`, `0` when no commitments. -/
def accountabilityScore (total_verified total_commitments : Nat) : Nat :=
  if total_commitments = 0 then 0
  else total_verified * 10000 / total_commitments

/-! ## Client-side name truncation and confidence clamping -/

/-- `s.slice(0, n)` counted in UTF-16 units (registerAgent.ts truncation;
a JS slice can split a surrogate pair — the model stops at the last full
character instead, which coincides with JS on BMP strings). -/
def sliceUtf16 (n : Nat) : List Char → List Char
  | [] => []
  | c :: cs =>
      let u := if c.toNat < 65536 then 1 else 2
      if u ≤ n then c :: sliceUtf16 (n - u) cs else []

/-- registerAgent.ts: `if (agentName.length > 64) agentName =
agentName.slice(0, 64)` — names over 64 UTF-16 units are silently
truncated before the Register instruction is built. -/
def prepareAgentNameEliza (name : String) : String :=
  if 64 < utf16Len name then String.mk (sliceUtf16 64 name.data) else name

/-- provider.ts `createReasoningTrace`: the trace's decision confidence
is `Math.round(Math.min(100, Math.max(0, confidence)))` — out-of-range
values are clamped, never rejected (shown here on integer inputs, where
`Math.round` is the identity). -/
def clampConfidence (c : Int) : Int := min 100 (max 0 c)

/-! ### Generic keyed-list lemmas for the state machine -/

section KeyedList

variable {K A : Type} [BEq K] [LawfulBEq K]

theorem lookup_cons (k k0 : K) (v0 : A) (l : List (K × A)) :
    List.lookup k ((k0, v0) :: l)
      = (match k == k0 with
         | true => some v0
         | false => List.lookup k l) := rfl

theorem setA_nil (k : K) (e : A) : setA ([] : List (K × A)) k e = [] := rfl

theorem setA_cons (k k0 : K) (e : A) (v0 : A) (l : List (K × A)) :
    setA ((k0, v0) :: l) k e
      = (match k0 == k with
         | true => (k, e)
         | false => (k0, v0)) :: setA l k e := rfl

theorem lookup_eq_none_iff (l : List (K × A)) (k : K) :
    l.lookup k = none ↔ k ∉ l.map Prod.fst := by
  induction l with
  | nil => simp [List.lookup]
  | cons p l ih =>
      obtain ⟨k0, v0⟩ := p
      by_cases hk : k = k0
      · subst hk
        simp [lookup_cons]
      · have hb : (k == k0) = false := by simp [hk]
        simp only [lookup_cons, hb, List.map_cons, List.mem_cons]
        rw [ih]
        constructor
        · intro h hmem
          rcases hmem with h1 | h1
          · exact hk h1
          · exact h h1
        · intro h hmem
          exact h (Or.inr hmem)

theorem lookup_some_mem {l : List (K × A)} {k : K} {v : A}
    (h : l.lookup k = some v) : (k, v) ∈ l := by
  induction l with
  | nil => simp [List.lookup] at h
  | cons p l ih =>
      obtain ⟨k0, v0⟩ := p
      by_cases hk : k = k0
      · subst hk
        rw [lookup_cons] at h
        simp only [beq_self_eq_true] at h
        obtain rfl : v0 = v := by simpa using h
        exact List.mem_cons_self _ _
      · have hb : (k == k0) = false := by simp [hk]
        rw [lookup_cons] at h
        simp only [hb] at h
        exact List.mem_cons_of_mem _ (ih h)

theorem setA_map_fst (l : List (K × A)) (k : K) (e : A) :
    (setA l k e).map Prod.fst = l.map Prod.fst := by
  induction l with
  | nil => rfl
  | cons p l ih =>
      obtain ⟨k0, v0⟩ := p
      by_cases hk : k0 = k
      · subst hk
        simp only [setA_cons, beq_self_eq_true, List.map_cons, ih]
      · have hb : (k0 == k) = false := by simp [hk]
        simp only [setA_cons, hb, List.map_cons, ih]

theorem setA_of_lookup_none {l : List (K × A)} {k : K} (e : A)
    (h : l.lookup k = none) : setA l k e = l := by
  induction l with
  | nil => rfl
  | cons p l ih =>
      obtain ⟨k0, v0⟩ := p
      by_cases hk : k = k0
      · subst hk
        rw [lookup_cons] at h
        simp at h
      · have hb : (k == k0) = false := by simp [hk]
        have hb2 : (k0 == k) = false := by simp [Ne.symm hk]
        rw [lookup_cons] at h
        simp only [hb] at h
        rw [setA_cons]
        simp only [hb2, ih h]

theorem lookup_setA_self {l : List (K × A)} {k : K} {v : A} (e : A)
    (h : l.lookup k = some v) : (setA l k e).lookup k = some e := by
  induction l with
  | nil => simp [List.lookup] at h
  | cons p l ih =>
      obtain ⟨k0, v0⟩ := p
      by_cases hk : k = k0
      · subst hk
        rw [setA_cons]
        simp only [beq_self_eq_true]
        rw [lookup_cons]
        simp
      · have hb : (k == k0) = false := by simp [hk]
        have hb2 : (k0 == k) = false := by simp [Ne.symm hk]
        rw [lookup_cons] at h
        simp only [hb] at h
        rw [setA_cons]
        simp only [hb2]
        rw [lookup_cons]
        simp only [hb]
        exact ih h

theorem lookup_setA_ne {l : List (K × A)} {k k2 : K} (e : A) (h : k2 ≠ k) :
    (setA l k e).lookup k2 = l.lookup k2 := by
  induction l with
  | nil => rfl
  | cons p l ih =>
      obtain ⟨k0, v0⟩ := p
      by_cases hk : k0 = k
      · subst hk
        have hb : (k2 == k0) = false := by simp [h]
        rw [setA_cons]
        simp only [beq_self_eq_true]
        rw [lookup_cons, lookup_cons]
        simp only [hb, ih]
      · have hb2 : (k0 == k) = false := by simp [hk]
        rw [setA_cons]
        simp only [hb2]
        rw [lookup_cons, lookup_cons]
        cases hq : k2 == k0
        · exact ih
        · rfl

theorem lookup_setA_isSome (l : List (K × A)) (k k2 : K) (e : A) :
    ((setA l k e).lookup k2).isSome = (l.lookup k2).isSome := by
  by_cases hk : k2 = k
  · subst hk
    cases hv : l.lookup k2 with
    | none => rw [setA_of_lookup_none e hv, hv]
    | some v => simp [lookup_setA_self e hv, hv]
  · rw [lookup_setA_ne e hk]

theorem mem_setA {l : List (K × A)} {k : K} {e : A} {p : K × A}
    (h : p ∈ setA l k e) : p ∈ l ∨ p = (k, e) := by
  induction l with
  | nil => simp [setA] at h
  | cons q l ih =>
      obtain ⟨k0, v0⟩ := q
      rw [setA_cons] at h
      rcases List.mem_cons.mp h with h1 | h1
      · by_cases hk : k0 = k
        · subst hk
          simp only [beq_self_eq_true] at h1
          exact Or.inr h1
        · have hb : (k0 == k) = false := by simp [hk]
          rw [hb] at h1
          exact Or.inl (h1 ▸ List.mem_cons_self _ _)
      · rcases ih h1 with h2 | h2
        · exact Or.inl (List.mem_cons_of_mem _ h2)
        · exact Or.inr h2

theorem countP_setA (e : A) (q : K × A → Bool) :
    ∀ (l : List (K × A)) (k : K) (v : A), (l.map Prod.fst).Nodup →
    l.lookup k = some v →
    (setA l k e).countP q + (if q (k, v) then 1 else 0)
      = l.countP q + (if q (k, e) then 1 else 0) := by
  intro l
  induction l with
  | nil => intro k v _ hv; simp [List.lookup] at hv
  | cons p l ih =>
      intro k v hnodup hv
      obtain ⟨k0, v0⟩ := p
      simp only [List.map_cons, List.nodup_cons] at hnodup
      by_cases hk : k = k0
      · subst hk
        rw [lookup_cons] at hv
        simp only [beq_self_eq_true] at hv
        obtain rfl : v0 = v := by simpa using hv
        have hnone : l.lookup k = none :=
          (lookup_eq_none_iff l k).mpr hnodup.1
        rw [setA_cons]
        simp only [beq_self_eq_true]
        rw [setA_of_lookup_none e hnone]
        simp only [List.countP_cons]
        by_cases h1 : q (k, v0) <;> by_cases h2 : q (k, e) <;>
          simp [h1, h2] <;> omega
      · have hb : (k == k0) = false := by simp [hk]
        have hb2 : (k0 == k) = false := by simp [Ne.symm hk]
        rw [lookup_cons] at hv
        simp only [hb] at hv
        rw [setA_cons]
        simp only [hb2, List.countP_cons]
        have hrec := ih k v hnodup.2 hv
        by_cases h1 : q (k0, v0) <;> simp [h1] <;> omega

end KeyedList

/-! ### The inductive invariant of the modelled program -/

/-- State invariant: agent and commitment keys are duplicate-free,
commitment records carry their key fields, commitments exist exactly for
nonces `0 .. total_commitments - 1` of a registered agent, and the two
counters count the agent's commitments and revealed commitments. -/
structure Inv (s : ChainState) : Prop where
  agentNodup : (s.agents.map Prod.fst).Nodup
  commitNodup : (s.commitments.map Prod.fst).Nodup
  commitKey : ∀ p ∈ s.commitments,
    p.2.agent = p.1.1 ∧ p.2.authority = p.1.1 ∧ p.2.nonce = p.1.2
  commitAgent : ∀ a, s.agents.lookup a = none →
    ∀ n, s.commitments.lookup (a, n) = none
  nonceDense : ∀ a e, s.agents.lookup a = some e →
    ∀ n, (s.commitments.lookup (a, n)).isSome = true ↔ n < e.total_commitments
  commitsCount : ∀ a e, s.agents.lookup a = some e →
    e.total_commitments = s.commitments.countP (fun p => p.1.1 == a)
  verifiedCount : ∀ a e, s.agents.lookup a = some e →
    e.total_verified = s.commitments.countP (fun p => p.1.1 == a && p.2.revealed)

theorem inv_initial : Inv initialState := by
  refine ⟨?_, ?_, ?_, ?_, ?_, ?_, ?_⟩ <;>
    simp [initialState, List.lookup]

theorem inv_registerOk (s : ChainState) (hI : Inv s) (authority : Nat)
    (name : String) (now : Int) (s2 : ChainState)
    (h : registerOp s authority name now = .ok s2) : Inv s2 := by
  unfold registerOp at h
  split at h
  · exact absurd h (by simp)
  next hfree =>
    split at h
    · exact absurd h (by simp)
    next hname =>
      obtain rfl : ({ s with agents :=
          (authority, ⟨authority, name, 0, 0, now⟩) :: s.agents } : ChainState)
          = s2 := Except.ok.inj h
      have ha : s.agents.lookup authority = none := by
        cases hv : s.agents.lookup authority with
        | none => rfl
        | some e => rw [hv] at hfree; simp at hfree
      refine ⟨?_, hI.commitNodup, hI.commitKey, ?_, ?_, ?_, ?_⟩
      · simp only [List.map_cons, List.nodup_cons]
        exact ⟨(lookup_eq_none_iff _ _).mp ha, hI.agentNodup⟩
      · intro b hb n
        rw [lookup_cons] at hb
        cases hq : b == authority with
        | true => rw [hq] at hb; simp at hb
        | false =>
            rw [hq] at hb
            exact hI.commitAgent b hb n
      · intro b e hb n
        rw [lookup_cons] at hb
        cases hq : b == authority with
        | true =>
            obtain rfl : b = authority := by simpa using hq
            rw [hq] at hb
            obtain rfl : (⟨b, name, 0, 0, now⟩ : AgentEntry) = e := by
              simpa using hb
            have := hI.commitAgent b ha n
            simp [this]
        | false =>
            rw [hq] at hb
            exact hI.nonceDense b e hb n
      · intro b e hb
        rw [lookup_cons] at hb
        cases hq : b == authority with
        | true =>
            obtain rfl : b = authority := by simpa using hq
            rw [hq] at hb
            obtain rfl : (⟨b, name, 0, 0, now⟩ : AgentEntry) = e := by
              simpa using hb
            show (0 : Nat) = _
            symm
            rw [List.countP_eq_zero]
            intro p hp hpa
            have hkey : p.1.1 = b := by simpa using hpa
            have hmem : p.1 ∈ s.commitments.map Prod.fst := List.mem_map_of_mem _ hp
            have := hI.commitAgent b ha p.1.2
            rw [lookup_eq_none_iff] at this
            apply this
            rwa [show ((b, p.1.2) : Nat × Nat) = p.1 by
              rw [← hkey]] 
        | false =>
            rw [hq] at hb
            exact hI.commitsCount b e hb
      · intro b e hb
        rw [lookup_cons] at hb
        cases hq : b == authority with
        | true =>
            obtain rfl : b = authority := by simpa using hq
            rw [hq] at hb
            obtain rfl : (⟨b, name, 0, 0, now⟩ : AgentEntry) = e := by
              simpa using hb
            show (0 : Nat) = _
            symm
            rw [List.countP_eq_zero]
            intro p hp hpa
            have hkey : p.1.1 = b := by
              have := (Bool.and_eq_true _ _).mp hpa
              simpa using this.1
            have := hI.commitAgent b ha p.1.2
            rw [lookup_eq_none_iff] at this
            apply this
            rw [show ((b, p.1.2) : Nat × Nat) = p.1 by rw [← hkey]]
            exact List.mem_map_of_mem _ hp
        | false =>
            rw [hq] at hb
            exact hI.verifiedCount b e hb

theorem inv_commitOk (s : ChainState) (hI : Inv s) (authority : Nat)
    (hash : List Nat) (actionType : String) (confidence nonce : Nat)
    (now : Int) (s2 : ChainState)
    (h : commitOp s authority hash actionType confidence nonce now = .ok s2) :
    Inv s2 := by
  unfold commitOp at h
  split at h
  · exact absurd h (by simp)
  next agent hag =>
      split at h
      · exact absurd h (by simp)
      next hnonce =>
        split at h
        · exact absurd h (by simp)
        next hconf =>
          split at h
          · exact absurd h (by simp)
          next hat =>
            obtain rfl :
                ({ agents := setA s.agents authority
                    { agent with total_commitments :=
                        agent.total_commitments + 1 },
                   commitments := ((authority, nonce),
                    ⟨authority, authority, hash, actionType, confidence,
                      nonce, now, false, none⟩) :: s.commitments } : ChainState)
                = s2 := Except.ok.inj h
            have hnonceEq : nonce = agent.total_commitments := by
              by_contra hne
              exact hnonce hne
            have hnone : s.commitments.lookup (authority, nonce) = none := by
              have hd := hI.nonceDense authority agent hag nonce
              cases hv : s.commitments.lookup (authority, nonce) with
              | none => rfl
              | some r =>
                  rw [hv] at hd
                  simp only [Option.isSome_some, true_iff] at hd
                  omega
            have hkeyNotMem : ((authority, nonce) : Nat × Nat)
                ∉ s.commitments.map Prod.fst :=
              (lookup_eq_none_iff _ _).mp hnone
            refine ⟨?_, ?_, ?_, ?_, ?_, ?_, ?_⟩ <;> dsimp only
            · rw [setA_map_fst]
              exact hI.agentNodup
            · simp only [List.map_cons, List.nodup_cons]
              exact ⟨hkeyNotMem, hI.commitNodup⟩
            · intro p hp
              rcases List.mem_cons.mp hp with rfl | hp
              · exact ⟨rfl, rfl, rfl⟩
              · exact hI.commitKey p hp
            · intro b hb n
              have hbne : b ≠ authority := by
                intro hbeq
                subst hbeq
                rw [lookup_setA_self _ hag] at hb
                exact Option.noConfusion hb
              rw [lookup_setA_ne _ hbne] at hb
              have hkne : ((b, n) : Nat × Nat) ≠ (authority, nonce) := by
                simp [hbne]
              rw [lookup_cons]
              rw [beq_eq_false_iff_ne.mpr hkne]
              exact hI.commitAgent b hb n
            · intro b e hb n
              by_cases hbe : b = authority
              · subst hbe
                rw [lookup_setA_self _ hag] at hb
                obtain rfl : ({ agent with total_commitments :=
                    agent.total_commitments + 1 } : AgentEntry) = e := by
                  simpa using hb
                by_cases hn : n = nonce
                · subst hn
                  rw [lookup_cons]
                  simp only [beq_self_eq_true]
                  simp only [Option.isSome_some, true_iff]
                  omega
                · have hkne : ((b, n) : Nat × Nat) ≠ (b, nonce) := by
                    simp [hn]
                  rw [lookup_cons, beq_eq_false_iff_ne.mpr hkne]
                  have hold := hI.nonceDense b agent hag n
                  rw [hold]
                  simp only [AgentEntry.mk.injEq]
                  omega
              · rw [lookup_setA_ne _ hbe] at hb
                have hkne : ((b, n) : Nat × Nat) ≠ (authority, nonce) := by
                  simp [hbe]
                rw [lookup_cons, beq_eq_false_iff_ne.mpr hkne]
                exact hI.nonceDense b e hb n
            · intro b e hb
              by_cases hbe : b = authority
              · subst hbe
                rw [lookup_setA_self _ hag] at hb
                obtain rfl : ({ agent with total_commitments :=
                    agent.total_commitments + 1 } : AgentEntry) = e := by
                  simpa using hb
                simp only [List.countP_cons]
                rw [hI.commitsCount b agent hag]
                simp
              · rw [lookup_setA_ne _ hbe] at hb
                simp only [List.countP_cons]
                have hhead : ((authority) == b) = false := by
                  simp [Ne.symm hbe]
                rw [hI.commitsCount b e hb]
                simp [hhead]
            · intro b e hb
              by_cases hbe : b = authority
              · subst hbe
                rw [lookup_setA_self _ hag] at hb
                obtain rfl : ({ agent with total_commitments :=
                    agent.total_commitments + 1 } : AgentEntry) = e := by
                  simpa using hb
                simp only [List.countP_cons]
                rw [hI.verifiedCount b agent hag]
                simp
              · rw [lookup_setA_ne _ hbe] at hb
                simp only [List.countP_cons]
                rw [hI.verifiedCount b e hb]
                simp [Ne.symm hbe]

theorem inv_revealOk (s : ChainState) (hI : Inv s) (caller : Nat)
    (addr : Nat × Nat) (uri : String) (s2 : ChainState)
    (h : revealOp s caller addr uri = .ok s2) : Inv s2 := by
  unfold revealOp at h
  split at h
  · exact absurd h (by simp)
  next r hr =>
    split at h
    · exact absurd h (by simp)
    next hauth =>
      split at h
      · exact absurd h (by simp)
      next hrev =>
        split at h
        · exact absurd h (by simp)
        next huri =>
          split at h
          · exact absurd h (by simp)
          next agent hag =>
            obtain rfl :
                ({ agents := setA s.agents r.agent
                    ({ agent with total_verified := agent.total_verified + 1 }),
                   commitments := setA s.commitments addr
                    ({ r with revealed := true, reasoning_uri := some uri }) } : ChainState)
                = s2 := Except.ok.inj h
            have hkey := hI.commitKey (addr, r) (lookup_some_mem hr)
            dsimp only at hkey
            have hrevF : r.revealed = false := by
              cases hx : r.revealed
              · rfl
              · exact absurd hx hrev
            refine ⟨?_, ?_, ?_, ?_, ?_, ?_, ?_⟩ <;> dsimp only
            · rw [setA_map_fst]
              exact hI.agentNodup
            · rw [setA_map_fst]
              exact hI.commitNodup
            · intro p hp
              rcases mem_setA hp with hp | rfl
              · exact hI.commitKey p hp
              · exact ⟨hkey.1, hkey.2.1, hkey.2.2⟩
            · intro b hb n
              have hbne : b ≠ r.agent := by
                intro hbeq
                subst hbeq
                rw [lookup_setA_self _ hag] at hb
                exact Option.noConfusion hb
              rw [lookup_setA_ne _ hbne] at hb
              by_cases hba : ((b, n) : Nat × Nat) = addr
              · exfalso
                rw [← hba] at hr
                rw [hI.commitAgent b hb n] at hr
                exact Option.noConfusion hr
              · rw [lookup_setA_ne _ hba]
                exact hI.commitAgent b hb n
            · intro b e hb n
              by_cases hbe : b = r.agent
              · subst hbe
                rw [lookup_setA_self _ hag] at hb
                obtain rfl : ({ agent with total_verified :=
                    agent.total_verified + 1 } : AgentEntry) = e := by
                  simpa using hb
                rw [lookup_setA_isSome]
                exact hI.nonceDense r.agent agent hag n
              · rw [lookup_setA_ne _ hbe] at hb
                rw [lookup_setA_isSome]
                exact hI.nonceDense b e hb n
            · intro b e hb
              have hcnt := countP_setA
                ({ r with revealed := true, reasoning_uri := some uri })
                (fun p => p.1.1 == b) s.commitments addr r
                hI.commitNodup hr
              dsimp only at hcnt
              have hcnt2 : (setA s.commitments addr
                  ({ r with revealed := true, reasoning_uri := some uri })).countP (fun p => p.1.1 == b)
                  = s.commitments.countP (fun p => p.1.1 == b) :=
                Nat.add_right_cancel hcnt
              rw [hcnt2]
              by_cases hbe : b = r.agent
              · subst hbe
                rw [lookup_setA_self _ hag] at hb
                obtain rfl : ({ agent with total_verified :=
                    agent.total_verified + 1 } : AgentEntry) = e := by
                  simpa using hb
                exact hI.commitsCount r.agent agent hag
              · rw [lookup_setA_ne _ hbe] at hb
                exact hI.commitsCount b e hb
            · intro b e hb
              have hcnt := countP_setA
                ({ r with revealed := true, reasoning_uri := some uri })
                (fun p => p.1.1 == b && p.2.revealed) s.commitments addr r
                hI.commitNodup hr
              dsimp only at hcnt
              rw [hrevF] at hcnt
              by_cases hbe : b = r.agent
              · subst hbe
                rw [lookup_setA_self _ hag] at hb
                obtain rfl : ({ agent with total_verified :=
                    agent.total_verified + 1 } : AgentEntry) = e := by
                  simpa using hb
                have haddr : (addr.1 == r.agent) = true := by
                  rw [beq_iff_eq]
                  exact hkey.1.symm
                rw [haddr] at hcnt
                simp only [Bool.and_false, Bool.and_true] at hcnt
                norm_num at hcnt
                have hv := hI.verifiedCount r.agent agent hag
                dsimp only
                omega
              · rw [lookup_setA_ne _ hbe] at hb
                have haddr : (addr.1 == b) = false := by
                  have : addr.1 = r.agent := hkey.1.symm
                  simp [this, Ne.symm hbe]
                rw [haddr] at hcnt
                simp only [Bool.false_and] at hcnt
                norm_num at hcnt
                have hv := hI.verifiedCount b e hb
                omega

theorem inv_applyOp (s : ChainState) (op : Op) (hI : Inv s) :
    Inv (applyOp s op) := by
  unfold applyOp
  cases hs2 : step s op with
  | error e => exact hI
  | ok s2 =>
      cases op with
      | register authority name now =>
          exact inv_registerOk s hI authority name now s2 hs2
      | commit authority hash actionType confidence nonce now =>
          exact inv_commitOk s hI authority hash actionType confidence nonce
            now s2 hs2
      | reveal caller addr uri =>
          exact inv_revealOk s hI caller addr uri s2 hs2

theorem reachable_inv (s : ChainState) (hs : Reachable s) : Inv s := by
  induction hs with
  | init => exact inv_initial
  | next s op _ ih => exact inv_applyOp s op ih

/-! ### Shapes of successful operations -/

theorem registerOk_commitments (s : ChainState) (authority : Nat)
    (name : String) (now : Int) (s2 : ChainState)
    (h : registerOp s authority name now = .ok s2) :
    s2.commitments = s.commitments := by
  unfold registerOp at h
  split at h
  · exact absurd h (by simp)
  · split at h
    · exact absurd h (by simp)
    · obtain rfl := Except.ok.inj h
      rfl

theorem commitOk_shape (s : ChainState) (authority : Nat) (hash : List Nat)
    (actionType : String) (confidence nonce : Nat) (now : Int)
    (s2 : ChainState)
    (h : commitOp s authority hash actionType confidence nonce now = .ok s2) :
    ∃ agent, s.agents.lookup authority = some agent
      ∧ nonce = agent.total_commitments
      ∧ s2.commitments = ((authority, nonce),
          (⟨authority, authority, hash, actionType, confidence, nonce, now,
            false, none⟩ : CommitmentRecord)) :: s.commitments := by
  unfold commitOp at h
  split at h
  · exact absurd h (by simp)
  next agent hag =>
      split at h
      · exact absurd h (by simp)
      next hnonce =>
        split at h
        · exact absurd h (by simp)
        split at h
        · exact absurd h (by simp)
        obtain rfl := Except.ok.inj h
        exact ⟨agent, hag, by omega, rfl⟩

theorem revealOk_shape (s : ChainState) (caller : Nat) (addr : Nat × Nat)
    (uri : String) (s2 : ChainState)
    (h : revealOp s caller addr uri = .ok s2) :
    ∃ r, s.commitments.lookup addr = some r
      ∧ r.revealed = false ∧ r.authority = caller
      ∧ s2.commitments = setA s.commitments addr
          ({ r with revealed := true, reasoning_uri := some uri }) := by
  unfold revealOp at h
  split at h
  · exact absurd h (by simp)
  next r hr =>
    split at h
    · exact absurd h (by simp)
    next hauth =>
      split at h
      · exact absurd h (by simp)
      next hrev =>
        split at h
        · exact absurd h (by simp)
        split at h
        · exact absurd h (by simp)
        next agent hag =>
          obtain rfl := Except.ok.inj h
          refine ⟨r, hr, ?_, by omega, rfl⟩
          cases hx : r.revealed
          · rfl
          · exact absurd hx hrev

/-! ## Claims C4, C5, C6 -/

/-- C4: in every reachable state, a registered agent's commitments exist
exactly at nonces `0 .. total_commitments - 1` (no gaps or repeats, and
all of them enumerable by address), and a Commit supplying any other
nonce fails with `InvalidNonce`.  Modelled from the spec (the on-chain
program is not under src/). -/
theorem C4_nonce_dense_enumeration (s : ChainState) (hs : Reachable s)
    (a : Nat) (e : AgentEntry) (he : s.agents.lookup a = some e) :
    (∀ n, (s.commitments.lookup (a, n)).isSome = true
        ↔ n < e.total_commitments)
    ∧ (∀ hash actionType confidence nonce now,
        nonce ≠ e.total_commitments →
        step s (.commit a hash actionType confidence nonce now)
          = .error .InvalidNonce) := by
  have hI := reachable_inv s hs
  refine ⟨hI.nonceDense a e he, ?_⟩
  intro hash actionType confidence nonce now hne
  show commitOp s a hash actionType confidence nonce now
    = .error .InvalidNonce
  unfold commitOp
  rw [he]
  simp only []
  rw [if_pos hne]

def opsEx : List Op :=
  [.register 1 "A" 0, .commit 1 [9] "trade" 50 0 5]

def sEx : ChainState := runOps initialState opsEx

def eEx : AgentEntry := ⟨1, "A", 1, 0, 0⟩

theorem reachable_sEx : Reachable sEx :=
  Reachable.next _ (.commit 1 [9] "trade" 50 0 5)
    (Reachable.next _ (.register 1 "A" 0) Reachable.init)

theorem C4_nonce_dense_enumeration_witness :
    Reachable sEx ∧ sEx.agents.lookup 1 = some eEx
      ∧ ((∀ n, (sEx.commitments.lookup (1, n)).isSome = true
            ↔ n < eEx.total_commitments)
        ∧ (∀ hash actionType confidence nonce now,
            nonce ≠ eEx.total_commitments →
            step sEx (.commit 1 hash actionType confidence nonce now)
              = .error .InvalidNonce)) :=
  ⟨reachable_sEx, by decide,
    C4_nonce_dense_enumeration sEx reachable_sEx 1 eEx (by decide)⟩

/-- C5: the `revealed` flag of a commitment record starts `false`
(commit creates it unrevealed with no URI); once it is `true`, no
operation ever changes the record again (in particular `reasoning_uri`
never changes), a Reveal by the record's own authority fails with
`AlreadyRevealed`, and no Reveal on the record can succeed.  Modelled
from the spec (the on-chain program is not under src/). -/
theorem C5_reveal_exactly_once (s : ChainState) (hs : Reachable s)
    (addr : Nat × Nat) (r : CommitmentRecord)
    (hr : s.commitments.lookup addr = some r) (hrev : r.revealed = true) :
    (∀ op, (applyOp s op).commitments.lookup addr = some r)
    ∧ (∀ uri, step s (.reveal r.authority addr uri)
        = .error .AlreadyRevealed)
    ∧ (∀ caller uri s2, step s (.reveal caller addr uri) ≠ .ok s2)
    ∧ (∀ s2 authority hash actionType confidence nonce now,
        step s (.commit authority hash actionType confidence nonce now)
          = .ok s2 →
        ∃ rec, s2.commitments.lookup (authority, nonce) = some rec
          ∧ rec.revealed = false ∧ rec.reasoning_uri = none) := by
  have hI := reachable_inv s hs
  have hAlready : ∀ uri, step s (.reveal r.authority addr uri)
      = .error .AlreadyRevealed := by
    intro uri
    show revealOp s r.authority addr uri = .error .AlreadyRevealed
    unfold revealOp
    rw [hr]
    simp only []
    rw [if_neg (by simp), if_pos hrev]
  have hNoReveal : ∀ caller uri s2,
      step s (.reveal caller addr uri) ≠ .ok s2 := by
    intro caller uri s2 hok
    obtain ⟨r2, hr2, hrev2, _, _⟩ := revealOk_shape s caller addr uri s2 hok
    rw [hr] at hr2
    obtain rfl : r = r2 := by simpa using hr2
    rw [hrev] at hrev2
    exact Bool.noConfusion hrev2
  refine ⟨?_, hAlready, hNoReveal, ?_⟩
  · intro op
    unfold applyOp
    cases hs2 : step s op with
    | error e => exact hr
    | ok s2 =>
        cases op with
        | register authority name now =>
            rw [registerOk_commitments s authority name now s2 hs2]
            exact hr
        | commit authority hash actionType confidence nonce now =>
            obtain ⟨agent, hag, hnonce, hcomm⟩ :=
              commitOk_shape s authority hash actionType confidence nonce
                now s2 hs2
            rw [hcomm]
            have hnew : s.commitments.lookup (authority, nonce) = none := by
              have hd := hI.nonceDense authority agent hag nonce
              cases hv : s.commitments.lookup (authority, nonce) with
              | none => rfl
              | some x =>
                  rw [hv] at hd
                  simp only [Option.isSome_some, true_iff] at hd
                  omega
            have hne : addr ≠ (authority, nonce) := by
              intro heq
              rw [heq, hnew] at hr
              exact Option.noConfusion hr
            rw [lookup_cons, beq_eq_false_iff_ne.mpr hne]
            exact hr
        | reveal caller addr2 uri =>
            obtain ⟨r2, hr2, hrev2, _, hcomm⟩ :=
              revealOk_shape s caller addr2 uri s2 hs2
            have hne : addr ≠ addr2 := by
              intro heq
              rw [← heq, hr] at hr2
              obtain rfl : r = r2 := by simpa using hr2
              rw [hrev] at hrev2
              exact Bool.noConfusion hrev2
            rw [hcomm, lookup_setA_ne _ hne]
            exact hr
  · intro s2 authority hash actionType confidence nonce now hok
    obtain ⟨agent, hag, hnonce, hcomm⟩ :=
      commitOk_shape s authority hash actionType confidence nonce now s2 hok
    refine ⟨⟨authority, authority, hash, actionType, confidence, nonce,
      now, false, none⟩, ?_, rfl, rfl⟩
    rw [hcomm, lookup_cons]
    simp

def sExRevealed : ChainState := runOps sEx [.reveal 1 (1, 0) "ipfs://x"]

def rExRevealed : CommitmentRecord :=
  ⟨1, 1, [9], "trade", 50, 0, 5, true, some "ipfs://x"⟩

theorem reachable_sExRevealed : Reachable sExRevealed :=
  Reachable.next _ (.reveal 1 (1, 0) "ipfs://x") reachable_sEx

theorem C5_reveal_exactly_once_witness :
    Reachable sExRevealed
      ∧ sExRevealed.commitments.lookup (1, 0) = some rExRevealed
      ∧ rExRevealed.revealed = true
      ∧ ((∀ op, (applyOp sExRevealed op).commitments.lookup (1, 0)
            = some rExRevealed)
        ∧ (∀ uri, step sExRevealed
              (.reveal rExRevealed.authority (1, 0) uri)
            = .error .AlreadyRevealed)
        ∧ (∀ caller uri s2, step sExRevealed (.reveal caller (1, 0) uri)
            ≠ .ok s2)
        ∧ (∀ s2 authority hash actionType confidence nonce now,
            step sExRevealed
                (.commit authority hash actionType confidence nonce now)
              = .ok s2 →
            ∃ rec, s2.commitments.lookup (authority, nonce) = some rec
              ∧ rec.revealed = false ∧ rec.reasoning_uri = none)) :=
  ⟨reachable_sExRevealed, by decide, by decide,
    C5_reveal_exactly_once sExRevealed reachable_sExRevealed (1, 0)
      rExRevealed (by decide) (by decide)⟩

theorem countP_mono_of_imp {α : Type} (l : List α) (p q : α → Bool)
    (h : ∀ x ∈ l, p x = true → q x = true) :
    l.countP p ≤ l.countP q := by
  induction l with
  | nil => simp
  | cons x l ih =>
      simp only [List.countP_cons]
      have hrec := ih (fun y hy => h y (List.mem_cons_of_mem _ hy))
      by_cases hp : p x = true
      · rw [h x (List.mem_cons_self _ _) hp]
        simp [hp]
        omega
      · have : (p x = true) = False := by simp [hp]
        simp [hp]
        split <;> omega

/-- C6 (corrected): in every reachable state, every registered agent's
accountability score `total_verified * 10000 / total_commitments` (0
when there are no commitments) lies in `[0, 10000]`, it is 0 whenever
`total_commitments = 0`, and `total_verified ≤ total_commitments`; but
the score is NOT 0 "exactly when" `total_commitments = 0` — see the
counterexample.  Modelled from the spec (the on-chain program is not
under src/). -/
theorem C6_score_bounds (s : ChainState) (hs : Reachable s)
    (a : Nat) (e : AgentEntry) (he : s.agents.lookup a = some e) :
    accountabilityScore e.total_verified e.total_commitments ≤ 10000
    ∧ (e.total_commitments = 0 →
        accountabilityScore e.total_verified e.total_commitments = 0)
    ∧ e.total_verified ≤ e.total_commitments := by
  have hI := reachable_inv s hs
  have hle : e.total_verified ≤ e.total_commitments := by
    rw [hI.commitsCount a e he, hI.verifiedCount a e he]
    exact countP_mono_of_imp _ _ _
      (fun p _ hp => by
        have := (Bool.and_eq_true _ _).mp hp
        exact this.1)
  refine ⟨?_, ?_, hle⟩
  · unfold accountabilityScore
    by_cases hc : e.total_commitments = 0
    · simp [hc]
    · rw [if_neg hc]
      have h1 : e.total_verified * 10000 ≤ e.total_commitments * 10000 :=
        Nat.mul_le_mul_right _ hle
      calc e.total_verified * 10000 / e.total_commitments
          ≤ e.total_commitments * 10000 / e.total_commitments :=
            Nat.div_le_div_right h1
        _ = 10000 := Nat.mul_div_cancel_left _ (Nat.pos_of_ne_zero hc)
  · intro hc
    unfold accountabilityScore
    rw [if_pos hc]

theorem C6_score_bounds_witness :
    Reachable sEx ∧ sEx.agents.lookup 1 = some eEx
      ∧ (accountabilityScore eEx.total_verified eEx.total_commitments ≤ 10000
        ∧ (eEx.total_commitments = 0 →
            accountabilityScore eEx.total_verified eEx.total_commitments = 0)
        ∧ eEx.total_verified ≤ eEx.total_commitments) :=
  ⟨reachable_sEx, by decide,
    C6_score_bounds sEx reachable_sEx 1 eEx (by decide)⟩

/-- C6 counterexample: after one Commit and zero Reveals (a reachable
state), the agent's score is 0 while `total_commitments = 1 ≠ 0`, so the
score does not equal 0 "exactly when" `total_commitments == 0`. -/
theorem C6_counterexample :
    Reachable sEx
      ∧ sEx.agents.lookup 1 = some eEx
      ∧ accountabilityScore eEx.total_verified eEx.total_commitments = 0
      ∧ eEx.total_commitments ≠ 0 :=
  ⟨reachable_sEx, by decide, by decide, by decide⟩

/-! ## Claims C8, C9 -/

theorem utf16Len_sliceUtf16 (n : Nat) (cs : List Char) :
    utf16Len (String.mk (sliceUtf16 n cs)) ≤ n := by
  induction cs generalizing n with
  | nil => simp [sliceUtf16, utf16Len]
  | cons c cs ih =>
      show utf16Len (String.mk (sliceUtf16 n (c :: cs))) ≤ n
      unfold sliceUtf16
      simp only []
      by_cases hu : (if c.toNat < 65536 then 1 else 2) ≤ n
      · rw [if_pos hu]
        have hrec := ih (n - (if c.toNat < 65536 then 1 else 2))
        unfold utf16Len at hrec ⊢
        simp only [List.foldr_cons] at hrec ⊢
        omega
      · rw [if_neg hu]
        simp [utf16Len]

def longNameEx : String := String.mk (List.replicate 65 'a')

/-- C8 (corrected): in the modelled on-chain program, a Register whose
name exceeds 64 UTF-8 bytes fails with `NameTooLong` and leaves the
state unchanged (no agent entry is created), and the Eliza plugin's
prepared name always fits 64 UTF-16 units; but the name IS silently
shortened by the plugin before the instruction is built (registerAgent.ts
slices over-long names to 64 units and registration then succeeds — see
the counterexample), so "never silently shortened" fails. -/
theorem C8_name_too_long_rejected (s : ChainState) (authority : Nat)
    (name : String) (now : Int)
    (hreg : s.agents.lookup authority = none)
    (hlen : MAX_NAME_BYTES < (utf8Bytes name).length) :
    step s (.register authority name now) = .error .NameTooLong
    ∧ applyOp s (.register authority name now) = s
    ∧ utf16Len (prepareAgentNameEliza name) ≤ 64 := by
  have hstep : step s (.register authority name now)
      = .error .NameTooLong := by
    show registerOp s authority name now = .error .NameTooLong
    unfold registerOp
    rw [hreg]
    rw [if_neg (by simp), if_pos hlen]
  refine ⟨hstep, ?_, ?_⟩
  · unfold applyOp
    rw [hstep]
  · unfold prepareAgentNameEliza
    by_cases h64 : 64 < utf16Len name
    · rw [if_pos h64]
      exact utf16Len_sliceUtf16 64 name.data
    · rw [if_neg h64]
      omega

theorem C8_name_too_long_rejected_witness :
    initialState.agents.lookup 1 = none
    ∧ MAX_NAME_BYTES < (utf8Bytes longNameEx).length
    ∧ (step initialState (.register 1 longNameEx 0) = .error .NameTooLong
      ∧ applyOp initialState (.register 1 longNameEx 0) = initialState
      ∧ utf16Len (prepareAgentNameEliza longNameEx) ≤ 64) :=
  ⟨rfl, by decide,
    C8_name_too_long_rejected initialState 1 longNameEx 0 rfl (by decide)⟩

/-- C8 counterexample: a 65-byte name is over the bound, yet the Eliza
plugin silently slices it to 64 units (a different, 64-byte name) and
the Register built from the sliced name succeeds — the over-long name is
shortened to fit rather than surfaced as `NameTooLong`. -/
theorem C8_counterexample :
    MAX_NAME_BYTES < (utf8Bytes longNameEx).length
    ∧ prepareAgentNameEliza longNameEx ≠ longNameEx
    ∧ (utf8Bytes (prepareAgentNameEliza longNameEx)).length = 64
    ∧ (step initialState
        (.register 1 (prepareAgentNameEliza longNameEx) 0)).isOk = true :=
  ⟨by decide, by decide, by decide, by decide⟩

/-- C9 (corrected): in the modelled on-chain program, a Commit whose
confidence exceeds 100 fails with `ConfidenceOutOfRange` and leaves the
state unchanged (no commitment record is created); but the plugin's
`createReasoningTrace` clamps every confidence into `[0, 100]`
(`Math.min(100, Math.max(0, c))`) before it ever reaches the program, so
on the client path out-of-range values ARE silently clamped — see the
counterexample. -/
theorem C9_confidence_out_of_range (s : ChainState) (authority : Nat)
    (agent : AgentEntry) (hash : List Nat) (actionType : String)
    (confidence : Nat) (now : Int)
    (hag : s.agents.lookup authority = some agent)
    (hconf : 100 < confidence) :
    step s (.commit authority hash actionType confidence
        agent.total_commitments now) = .error .ConfidenceOutOfRange
    ∧ applyOp s (.commit authority hash actionType confidence
        agent.total_commitments now) = s
    ∧ (∀ c : Int, 0 ≤ clampConfidence c ∧ clampConfidence c ≤ 100) := by
  have hstep : step s (.commit authority hash actionType confidence
      agent.total_commitments now) = .error .ConfidenceOutOfRange := by
    show commitOp s authority hash actionType confidence
      agent.total_commitments now = .error .ConfidenceOutOfRange
    unfold commitOp
    rw [hag]
    simp only []
    rw [if_neg (by simp), if_pos hconf]
  refine ⟨hstep, ?_, ?_⟩
  · unfold applyOp
    rw [hstep]
  · intro c
    unfold clampConfidence
    omega

theorem C9_confidence_out_of_range_witness :
    sEx.agents.lookup 1 = some eEx
    ∧ 100 < 150
    ∧ (step sEx (.commit 1 [3] "t" 150 eEx.total_commitments 6)
        = .error .ConfidenceOutOfRange
      ∧ applyOp sEx (.commit 1 [3] "t" 150 eEx.total_commitments 6) = sEx
      ∧ (∀ c : Int, 0 ≤ clampConfidence c ∧ clampConfidence c ≤ 100)) :=
  ⟨by decide, by decide,
    C9_confidence_out_of_range sEx 1 eEx [3] "t" 150 6 (by decide)
      (by decide)⟩

/-- C9 counterexample: confidence 150 is out of range, the plugin clamps
it to 100, and the Commit built from the clamped value succeeds in a
reachable state — the out-of-range value is never rejected on this
path. -/
theorem C9_counterexample :
    100 < (150 : Int)
    ∧ clampConfidence 150 = 100
    ∧ (step sEx (.commit 1 [3] "t" (clampConfidence 150).toNat 1 6)).isOk
        = true :=
  ⟨by decide, by decide, by decide⟩

/-! ## Claim C10: the three ReasoningCommitment decoders -/

/-- `ReasoningCommitment` account discriminator (the same bytes in
provider.ts `ACCOUNT_DISCRIMINATORS.ReasoningCommitment` and the API's
`COMMITMENT_DISCRIMINATOR`). -/
def reasoningCommitmentDisc : List Nat := [67, 22, 65, 98, 26, 124, 5, 25]

/-- `buf.readUInt32LE(offset)`: throws (here `none`) when fewer than 4
bytes remain. -/
def readU32 (l : List Nat) (i : Nat) : Option Nat :=
  match l.get? i, l.get? (i + 1), l.get? (i + 2), l.get? (i + 3) with
  | some b0, some b1, some b2, some b3 =>
      some (b0 + 256 * b1 + 65536 * b2 + 16777216 * b3)
  | _, _, _, _ => none

/-- Whether an 8-byte read (`readBigInt64LE` / `readBigUInt64LE`) at
`i` is in bounds; out of bounds those reads throw. -/
def qwordInBounds (l : List Nat) (i : Nat) : Bool := i + 8 ≤ l.length

/-- `readString` of provider.ts and the explorer: a 4-byte LE length,
then that many bytes (`slice`/`subarray` clamp to the buffer end, so a
short buffer truncates silently); returns the bytes and the offset past
the string.  The decoded JS string is modelled as its raw bytes. -/
def readStrBytes (l : List Nat) (i : Nat) : Option (List Nat × Nat) :=
  match readU32 l i with
  | none => none
  | some len => some ((l.take (i + 4 + len)).drop (i + 4), i + 4 + len)

/-- The four fields C10 compares, as each decoder returns them
(string-valued fields as raw bytes; `confidence` is `none` when the
decoder read `undefined` out of bounds without throwing). -/
structure DecodedFields where
  actionType : List Nat
  confidence : Option Nat
  revealed : Bool
  reasoningUri : Option (List Nat)
deriving Repr, DecidableEq

/-- provider.ts `deserializeCommitment`: discriminator check, then agent
(32), authority (32, skipped), hash (32), `readString` action type at
offset 104, `data[offset]` confidence, `readBigInt64LE` timestamp,
`data[offset] === 1` revealed, `readString` URI (empty string becomes
`null` via `|| null`), nonce and bump skipped/untyped reads that never
throw. -/
def pluginDeserializeCommitment (data : List Nat) :
    Option DecodedFields :=
  if data.length < 8 then none
  else if data.take 8 ≠ reasoningCommitmentDisc then none
  else match readStrBytes data 104 with
  | none => none
  | some (actionType, atEnd) =>
      if qwordInBounds data (atEnd + 1) then
        match readStrBytes data (atEnd + 10) with
        | none => none
        | some (uri, _ruEnd) =>
            some ⟨actionType, data.get? atEnd,
              data.get? (atEnd + 9) == some 1,
              if uri = [] then none else some uri⟩
      else none

/-- Explorer (src/unnamed/part_007) `deserializeCommitment`: no
discriminator check; same layout as the plugin (agent, authority, hash,
action type at 104, confidence, i64 timestamp, revealed, URI with
`|| null`), then a `readBigUInt64LE` nonce that throws when out of
bounds. -/
def explorerDeserializeCommitment (data : List Nat) :
    Option DecodedFields :=
  match readStrBytes data 104 with
  | none => none
  | some (actionType, atEnd) =>
      if qwordInBounds data (atEnd + 1) then
        match readStrBytes data (atEnd + 10) with
        | none => none
        | some (uri, ruEnd) =>
            if qwordInBounds data ruEnd then
              some ⟨actionType, data.get? atEnd,
                data.get? (atEnd + 9) == some 1,
                if uri = [] then none else some uri⟩
            else none
      else none

/-- API `parseCommitmentAccount`: discriminator check, agent (32), hash
(32) — NO authority field, so the action-type string starts at offset
72 — then `readUInt8` confidence (throws out of bounds), u64 slot,
`readUInt8 === 1` revealed, and an Option-tagged URI (tag byte, then
4-byte length + bytes when the tag is 1; an empty tagged string stays a
string, not `null`). -/
def apiParseCommitmentAccount (data : List Nat) : Option DecodedFields :=
  if data.length < 8 then none
  else if data.take 8 ≠ reasoningCommitmentDisc then none
  else match readStrBytes data 72 with
  | none => none
  | some (actionType, atEnd) =>
      match data.get? atEnd with
      | none => none
      | some confidence =>
          if qwordInBounds data (atEnd + 1) then
            match data.get? (atEnd + 9) with
            | none => none
            | some rb =>
                match data.get? (atEnd + 10) with
                | none => none
                | some tag =>
                    if tag = 1 then
                      match readU32 data (atEnd + 11) with
                      | none => none
                      | some uriLen =>
                          some ⟨actionType, some confidence, rb == 1,
                            some ((data.take (atEnd + 15 + uriLen)).drop
                              (atEnd + 15))⟩
                    else some ⟨actionType, some confidence, rb == 1, none⟩
          else none

/-- C10 (corrected): the plugin's and the explorer's
`deserializeCommitment` read the identical account layout, so on every
buffer both accept they return equal `actionType`, `confidence`,
`revealed` and `reasoningUri`; but the API's `parseCommitmentAccount`
reads a layout without the 32-byte authority field (its action type
starts at offset 72, not 104), so it can accept the same buffer and
decode different field values — see the counterexample. -/
theorem C10_plugin_explorer_agree (data : List Nat) (p q : DecodedFields)
    (hp : pluginDeserializeCommitment data = some p)
    (hq : explorerDeserializeCommitment data = some q) :
    p.actionType = q.actionType ∧ p.confidence = q.confidence
    ∧ p.revealed = q.revealed ∧ p.reasoningUri = q.reasoningUri := by
  unfold pluginDeserializeCommitment at hp
  unfold explorerDeserializeCommitment at hq
  by_cases hlen : data.length < 8
  · rw [if_pos hlen] at hp
    exact Option.noConfusion hp
  rw [if_neg hlen] at hp
  by_cases hdisc : data.take 8 ≠ reasoningCommitmentDisc
  · rw [if_pos hdisc] at hp
    exact Option.noConfusion hp
  rw [if_neg hdisc] at hp
  cases h104 : readStrBytes data 104 with
  | none =>
      rw [h104] at hp
      exact Option.noConfusion hp
  | some pr =>
      obtain ⟨actionType, atEnd⟩ := pr
      rw [h104] at hp hq
      simp only [] at hp hq
      by_cases hi : qwordInBounds data (atEnd + 1) = true
      · rw [if_pos hi] at hp hq
        cases hu : readStrBytes data (atEnd + 10) with
        | none =>
            rw [hu] at hp
            exact Option.noConfusion hp
        | some pu =>
            obtain ⟨uri, ruEnd⟩ := pu
            rw [hu] at hp hq
            simp only [] at hp hq
            by_cases hn : qwordInBounds data ruEnd = true
            · rw [if_pos hn] at hq
              obtain rfl := Option.some.inj hp
              obtain rfl := Option.some.inj hq
              exact ⟨rfl, rfl, rfl, rfl⟩
            · rw [if_neg hn] at hq
              exact Option.noConfusion hq
      · rw [if_neg hi] at hp
        exact Option.noConfusion hp

/-- A 132-byte buffer starting with the commitment discriminator,
crafted so all three decoders accept it. -/
def bufEx : List Nat :=
  reasoningCommitmentDisc
    ++ List.replicate 64 0
    ++ [1, 0, 0, 0, 97, 5] ++ List.replicate 8 0 ++ [0, 0]
    ++ List.replicate 16 0
    ++ [1, 0, 0, 0, 98, 7] ++ List.replicate 8 0 ++ [1, 0, 0, 0, 0]
    ++ List.replicate 8 0 ++ [9]

def decEx : DecodedFields := ⟨[98], some 7, true, none⟩

set_option maxRecDepth 100000 in
theorem C10_plugin_explorer_agree_witness :
    pluginDeserializeCommitment bufEx = some decEx
    ∧ explorerDeserializeCommitment bufEx = some decEx
    ∧ (decEx.actionType = decEx.actionType
      ∧ decEx.confidence = decEx.confidence
      ∧ decEx.revealed = decEx.revealed
      ∧ decEx.reasoningUri = decEx.reasoningUri) :=
  ⟨by decide, by decide,
    C10_plugin_explorer_agree bufEx decEx decEx (by decide) (by decide)⟩

set_option maxRecDepth 100000 in
/-- C10 counterexample: `bufEx` starts with the discriminator and is
accepted by all three decoders, yet the API decodes action type "a",
confidence 5, revealed false (reading at offset 72) while the plugin
and the explorer decode action type "b", confidence 7, revealed true
(reading at offset 104). -/
theorem C10_counterexample :
    bufEx.take 8 = reasoningCommitmentDisc
    ∧ (apiParseCommitmentAccount bufEx).isSome = true
    ∧ (pluginDeserializeCommitment bufEx).isSome = true
    ∧ (explorerDeserializeCommitment bufEx).isSome = true
    ∧ (apiParseCommitmentAccount bufEx).map DecodedFields.actionType
      ≠ (pluginDeserializeCommitment bufEx).map DecodedFields.actionType
    ∧ (apiParseCommitmentAccount bufEx).map DecodedFields.confidence
      ≠ (pluginDeserializeCommitment bufEx).map DecodedFields.confidence
    ∧ (apiParseCommitmentAccount bufEx).map DecodedFields.revealed
      ≠ (pluginDeserializeCommitment bufEx).map DecodedFields.revealed :=
  ⟨by decide, by decide, by decide, by decide, by decide, by decide,
    by decide⟩

end Solprism
